import Mathlib

/-!
# apf: arbitrary precision floats over an external engine

A shallow embedding of `src/apf.cpp`, `src/apf.hpp` and `src/apf.tpp`.

* Strings (`std::string`) are lists of characters.
* The engine (GNU MPFR) is external.  The formatter and the digest are
  embedded as functions of what the engine calls return for the value at hand
  (`mpfr_sgn`, `mpfr_get_str`, `std::hash<double>` of `mpfr_get_d`).
* The interop layer is embedded over the engine's documented value semantics:
  a finite value is an exact rational, every operation returns the exact result
  rounded to the precision of the destination in the current rounding mode.
-/

namespace apf

/-! ## The canonical formatter (`apf::to_string`, src/apf.cpp 109-157) -/

/-- Decimal digits of a natural number, most significant first, accumulated the way
the stream inserter of an integer produces them (`fuel` bounds the number of digits). -/
def decDigitsAux : Nat → Nat → List Char → List Char
  | 0, _, acc => acc
  | fuel + 1, n, acc =>
    if n / 10 = 0 then Char.ofNat (48 + n % 10) :: acc
    else decDigitsAux fuel (n / 10) (Char.ofNat (48 + n % 10) :: acc)

/-- Decimal numeral of a natural number. -/
def decDigits (n : Nat) : List Char := decDigitsAux (n + 1) n []

/-- What `ss << exp` writes for a `long`: a minus sign for a negative number, no sign
otherwise, then the decimal digits of the magnitude. -/
def showLong (x : Int) : List Char :=
  if x < 0 then '-' :: decDigits x.natAbs else decDigits x.natAbs

/-- The member `std::string::substr(pos, len)` for `pos ≤ size()` (every call in the
sources satisfies it): the characters from `pos`, at most `len` of them. -/
def substr (s : List Char) (pos len : Nat) : List Char := (s.drop pos).take len

/-- The member `std::string::substr(pos)` for `pos ≤ size()`. -/
def substrFrom (s : List Char) (pos : Nat) : List Char := s.drop pos

/-- The character `s[0]` of a `std::string` (the terminating NUL when empty). -/
def charAt0 (s : List Char) : Char := s.headD (Char.ofNat 0)

/-- Embedding of `apf::to_string`.  `sgn` is `mpfr_sgn(value)`; `str` and `exp` are the
string and the exponent that `mpfr_get_str(nullptr, &exp, 10, 0, value, Rounding)`
returns; `PrintExpThreshold` is the global of that name.  Exponents are `long` in the
source; the engine keeps them far inside that range, so they are integers here. -/
def to_string (sgn : Int) (str : List Char) (exp : Int) (PrintExpThreshold : Int) :
    List Char :=
  if sgn = 0 then ['0']
  else
    let neg : Bool := charAt0 str == '-'
    let s := if neg then substrFrom str 1 else str
    let exp := exp - 1
    if |exp| > PrintExpThreshold then
      let mantissa := [charAt0 s]
      let mantissa := if s.length > 1 then mantissa ++ ('.' :: substrFrom s 1) else mantissa
      let mantissa := if neg then '-' :: mantissa else mantissa
      mantissa ++ [' ', 'e'] ++ showLong exp
    else
      let result :=
        if exp ≥ 0 then
          let result := substr s 0 (exp + 1).toNat
          if exp + 1 < (s.length : Int) then result ++ ('.' :: substrFrom s (exp + 1).toNat)
          else result
        else
          ['0', '.'] ++ List.replicate (-exp).toNat '0' ++ s
      if neg then '-' :: result else result

/-- The string the engine returns for a regular value: a minus sign when negative,
then the significant digits. -/
def engineStr (neg : Bool) (s : List Char) : List Char := if neg then '-' :: s else s

/-- The sign prefix of the formatted output. -/
def signStr (neg : Bool) : List Char := if neg then ['-'] else []

/-- Every character is a decimal digit. -/
def allDigits (s : List Char) : Prop := ∀ c ∈ s, c.isDigit = true

instance (s : List Char) : Decidable (allDigits s) := by
  unfold allDigits; infer_instance

/-- Number denoted by a string of decimal digits read as a natural number. -/
def digitsVal (s : List Char) : Nat := s.foldl (fun a c => 10 * a + (c.toNat - 48)) 0

/-- The scientific form for the exponent `e`: some mantissa, then a space, the letter
`e`, and `e` as a signed decimal numeral, i.e. a minus sign exactly when `e` is
negative and then a non-empty string of digits that denotes `|e|` and has no leading
zero. -/
def scientificForm (out : List Char) (e : Int) : Prop :=
  ∃ m ds, out = m ++ [' ', 'e'] ++ (if e < 0 then ['-'] else []) ++ ds
    ∧ ds ≠ [] ∧ allDigits ds ∧ (digitsVal ds : Int) = |e|
    ∧ (ds = ['0'] ∨ ds.head? ≠ some '0')

/-- The plain positional form `[-]digits[.digits]`: an optional minus sign, a non-empty
string of digits, and then either nothing or a point and a non-empty string of
digits. -/
def plainForm (out : List Char) : Prop :=
  ∃ (neg : Bool) (ip fp : List Char), ip ≠ [] ∧ allDigits ip ∧ allDigits fp
    ∧ out = signStr neg ++ ip ++ (if fp = [] then [] else '.' :: fp)

/-- The characters of a plain positional output: digits, the point and the minus. -/
def plainChar (c : Char) : Prop := c.isDigit = true ∨ c = '.' ∨ c = '-'

/-- Value of the decimal numeral `0.d₁d₂…dₙ × 10^x` with sign: the number the engine
reports through the digit string `s` and the exponent `x`. -/
def engineValue (neg : Bool) (s : List Char) (x : Int) : ℚ :=
  (if neg then -1 else 1) * ((digitsVal s : ℚ) / 10 ^ s.length) * 10 ^ x

/-- Number denoted by a plain positional numeral `[-]digits[.digits]`. -/
def plainValue (out : List Char) : ℚ :=
  let neg : Bool := charAt0 out == '-'
  let body := if neg then out.drop 1 else out
  let ip := body.takeWhile (fun c => c != '.')
  let fp := (body.dropWhile (fun c => c != '.')).drop 1
  (if neg then -1 else 1) * ((digitsVal ip : ℚ) + (digitsVal fp : ℚ) / 10 ^ fp.length)

/-- The digits the engine reports for one half at the default precision of `1000`
bits: asked for all significant digits, it returns `1 + ⌈1000 log 2 / log 10⌉ = 303` of
them, with the exponent `0`. -/
def digitsOfHalf : List Char := '5' :: List.replicate 302 '0'

/-! ## The digest (`std::hash<apf>::operator()`, src/apf.cpp 176-202) -/

/-- The `for` loop of the digest: `i` runs from its start value in steps of `hashDelta`
while `i < n`, each round folding `strhash(prehash.substr(n - i, hashDelta)) << 1` into
the running hash with XOR, in 64-bit `size_t` arithmetic.  Inside the loop `i < n`, so
`n - i` does not wrap and is a valid position, and `i + hashDelta` stays below `2 n`.
`none` is a loop that is still running when the fuel is used up. -/
def hashLoop (strhash : List Char → Nat) (prehash : List Char) (hashDelta : Nat) :
    Nat → Nat → Nat → Option Nat
  | 0, _, _ => none
  | fuel + 1, i, h =>
    if i < prehash.length then
      let hashStep := substr prehash (prehash.length - i) hashDelta
      hashLoop strhash prehash hashDelta fuel (i + hashDelta)
        (h ^^^ ((strhash hashStep * 2) % 2 ^ 64))
    else some h

/-- Embedding of `std::hash<apf>::operator()`.  `seed` is `dhash(apf::trim(a))`,
`prehash` the string `mpfr_get_str(nullptr, exp, 10, hashMax, a.value, Rounding)`
returns, `strhash` is `std::hash<std::string>`.  With `hashDelta ≥ 1` the loop runs at
most `n` rounds, so `n + 1` units of fuel never run out. -/
def hash (strhash : List Char → Nat) (hashDelta : Nat) (seed : Nat) (prehash : List Char) :
    Option Nat :=
  let n := prehash.length
  if n < hashDelta then some seed
  else hashLoop strhash prehash hashDelta (n + 1) 0 seed

/-- The windows the loop hashes, in order: `prehash.substr(n - i, hashDelta)` for
`i = i₀, i₀ + hashDelta, …` while `i < n` (same loop as `hashLoop`). -/
def hashedWindows (prehash : List Char) (hashDelta : Nat) : Nat → Nat → List (List Char)
  | 0, _ => []
  | fuel + 1, i =>
    if i < prehash.length then
      substr prehash (prehash.length - i) hashDelta ::
        hashedWindows prehash hashDelta fuel (i + hashDelta)
    else []

/-- Claimed window number `i` of the digest, in the words of the specification: the
substring of `p` of length `hashDelta` that ends at position `n - i`, clipped at the
start of `p`. -/
def specWindow (p : List Char) (hashDelta i : Nat) : List Char :=
  (p.take (p.length - i)).drop (p.length - i - hashDelta)

/-- The claimed windows in order, for `i = 0, hashDelta, 2 * hashDelta, …` below `n`. -/
def specWindows (p : List Char) (hashDelta : Nat) : List (List Char) :=
  ((List.range p.length).filter (fun i => i % hashDelta = 0)).map (specWindow p hashDelta)

/-- Claimed digest, in the words of the specification: the seed when `n < hashDelta`,
otherwise the seed XOR-combined with `texthash (w_i) << 1` for
`i = 0, hashDelta, 2 * hashDelta, …` below `n`. -/
def specHash (strhash : List Char → Nat) (hashDelta : Nat) (seed : Nat) (p : List Char) :
    Nat :=
  if p.length < hashDelta then seed
  else (specWindows p hashDelta).foldl (fun h w => h ^^^ ((strhash w * 2) % 2 ^ 64)) seed

/-- The `hashMax = 200` digits the engine reports for the number one. -/
def digitsOfOne : List Char := '1' :: List.replicate 199 '0'

/-- The string the engine reports for a zero at `hashMax = 200`: a minus sign for the
negative zero, then `200` characters `0`. -/
def digitsOfZero (neg : Bool) : List Char := engineStr neg (List.replicate 200 '0')

/-! ## The engine: values, rounding, arithmetic and comparison

The documented semantics of the engine calls the interop layer makes.  The exponent
range of the engine (about `2^62` binary orders of magnitude) is not modelled: no
operation overflows or underflows. -/

/-- Rounding modes of the engine (`mpfr_rnd_t`): to nearest with ties to even, toward
zero, toward plus infinity, toward minus infinity, away from zero. -/
inductive Rnd
  | RNDN | RNDZ | RNDU | RNDD | RNDA
  deriving DecidableEq, Repr

/-- What an `mpfr_t` (or a native `double`) holds: NaN, a signed infinity, a signed
zero, or a regular number `reg q` with `q ≠ 0`. -/
inductive MpfrVal
  | nan
  | inf (neg : Bool)
  | zero (neg : Bool)
  | reg (q : ℚ)
  deriving DecidableEq

/-- Rounding of a rational to an integer in the direction of the mode. -/
def roundInt (r : Rnd) (t : ℚ) : Int :=
  match r with
  | .RNDD => ⌊t⌋
  | .RNDU => ⌈t⌉
  | .RNDZ => if 0 ≤ t then ⌊t⌋ else ⌈t⌉
  | .RNDA => if 0 ≤ t then ⌈t⌉ else ⌊t⌋
  | .RNDN =>
    if t - ⌊t⌋ < 1 / 2 then ⌊t⌋
    else if 1 / 2 < t - ⌊t⌋ then ⌊t⌋ + 1
    else if ⌊t⌋ % 2 = 0 then ⌊t⌋ else ⌊t⌋ + 1

/-- Correct rounding of a rational to `p` significant bits: with `2^e ≤ |q| < 2^(e+1)`
the result is the multiple of `2^(e+1-p)` chosen by the mode. -/
def mpfr_round (p : Nat) (r : Rnd) (q : ℚ) : ℚ :=
  if q = 0 then 0
  else (roundInt r (q / 2 ^ (Int.log 2 |q| + 1 - (p : Int))) : ℚ) * 2 ^ (Int.log 2 |q| + 1 - (p : Int))

/-- Rounding of a value to the precision `p` of its destination. -/
def roundVal (p : Nat) (r : Rnd) : MpfrVal → MpfrVal
  | .reg q => .reg (mpfr_round p r q)
  | v => v

/-- An integer (`long`, `mpz_t`) as a value; these types have no signed zero. -/
def ofInt (z : Int) : MpfrVal := if z = 0 then .zero false else .reg z

/-- Sign bit of a rational. -/
def isNeg (q : ℚ) : Bool := decide (q < 0)

/-- The rational a finite value stands for. -/
def toRat : MpfrVal → ℚ
  | .reg q => q
  | _ => 0

/-- A well-formed finite value: a zero or a regular number. -/
def Finite : MpfrVal → Prop
  | .zero _ => True
  | .reg q => q ≠ 0
  | _ => False

/-- Exact negation. -/
def exactNeg : MpfrVal → MpfrVal
  | .nan => .nan
  | .inf s => .inf (!s)
  | .zero s => .zero (!s)
  | .reg q => .reg (-q)

/-- Exact sum with the IEEE 754 rules for the special values. -/
def exactAdd (r : Rnd) : MpfrVal → MpfrVal → MpfrVal
  | .nan, _ => .nan
  | _, .nan => .nan
  | .inf s, .inf t => if s = t then .inf s else .nan
  | .inf s, _ => .inf s
  | _, .inf t => .inf t
  | .zero s, .zero t => .zero (if s = t then s else decide (r = .RNDD))
  | .zero _, .reg y => .reg y
  | .reg x, .zero _ => .reg x
  | .reg x, .reg y => if x + y = 0 then .zero (decide (r = .RNDD)) else .reg (x + y)

/-- Exact product with the IEEE 754 rules for the special values. -/
def exactMul : MpfrVal → MpfrVal → MpfrVal
  | .nan, _ => .nan
  | _, .nan => .nan
  | .inf s, .inf t => .inf (xor s t)
  | .inf _, .zero _ => .nan
  | .zero _, .inf _ => .nan
  | .inf s, .reg y => .inf (xor s (isNeg y))
  | .reg x, .inf t => .inf (xor (isNeg x) t)
  | .zero s, .zero t => .zero (xor s t)
  | .zero s, .reg y => .zero (xor s (isNeg y))
  | .reg x, .zero t => .zero (xor (isNeg x) t)
  | .reg x, .reg y => .reg (x * y)

/-- Exact quotient with the IEEE 754 rules for the special values. -/
def exactDiv : MpfrVal → MpfrVal → MpfrVal
  | .nan, _ => .nan
  | _, .nan => .nan
  | .inf _, .inf _ => .nan
  | .inf s, .zero t => .inf (xor s t)
  | .inf s, .reg y => .inf (xor s (isNeg y))
  | .zero _, .zero _ => .nan
  | .zero s, .inf t => .zero (xor s t)
  | .zero s, .reg y => .zero (xor s (isNeg y))
  | .reg x, .inf t => .zero (xor (isNeg x) t)
  | .reg x, .zero t => .inf (xor (isNeg x) t)
  | .reg x, .reg y => .reg (x / y)

/-- The call `mpfr_set(rop, op, rnd)` with `rop` of precision `p`. -/
def mpfr_set (p : Nat) (op : MpfrVal) (r : Rnd) : MpfrVal := roundVal p r op

/-- The call `mpfr_set_d(rop, d, rnd)`: the double `d` is a value of its own. -/
def mpfr_set_d (p : Nat) (d : MpfrVal) (r : Rnd) : MpfrVal := roundVal p r d

/-- The call `mpfr_set_si(rop, z, rnd)`. -/
def mpfr_set_si (p : Nat) (z : Int) (r : Rnd) : MpfrVal := roundVal p r (ofInt z)

/-- The call `mpfr_neg(rop, op, rnd)`. -/
def mpfr_neg (p : Nat) (op : MpfrVal) (r : Rnd) : MpfrVal := roundVal p r (exactNeg op)

/-- The call `mpfr_add(rop, op1, op2, rnd)`. -/
def mpfr_add (p : Nat) (a b : MpfrVal) (r : Rnd) : MpfrVal := roundVal p r (exactAdd r a b)

/-- The call `mpfr_add_d(rop, op1, d, rnd)`. -/
def mpfr_add_d (p : Nat) (a d : MpfrVal) (r : Rnd) : MpfrVal := roundVal p r (exactAdd r a d)

/-- The call `mpfr_add_z(rop, op1, z, rnd)`; an integer zero is unsigned:
`(+0) + 0 = +0` and `(-0) + 0 = -0`. -/
def mpfr_add_z (p : Nat) (a : MpfrVal) (z : Int) (r : Rnd) : MpfrVal :=
  roundVal p r (if z = 0 then a else exactAdd r a (.reg z))

/-- The call `mpfr_sub(rop, op1, op2, rnd)`. -/
def mpfr_sub (p : Nat) (a b : MpfrVal) (r : Rnd) : MpfrVal :=
  roundVal p r (exactAdd r a (exactNeg b))

/-- The call `mpfr_sub_d(rop, op1, d, rnd)`. -/
def mpfr_sub_d (p : Nat) (a d : MpfrVal) (r : Rnd) : MpfrVal :=
  roundVal p r (exactAdd r a (exactNeg d))

/-- The call `mpfr_sub_z(rop, op1, z, rnd)`; an integer zero is unsigned. -/
def mpfr_sub_z (p : Nat) (a : MpfrVal) (z : Int) (r : Rnd) : MpfrVal :=
  roundVal p r (if z = 0 then a else exactAdd r a (.reg (-z)))

/-- The call `mpfr_mul(rop, op1, op2, rnd)`. -/
def mpfr_mul (p : Nat) (a b : MpfrVal) (r : Rnd) : MpfrVal := roundVal p r (exactMul a b)

/-- The call `mpfr_mul_d(rop, op1, d, rnd)`. -/
def mpfr_mul_d (p : Nat) (a d : MpfrVal) (r : Rnd) : MpfrVal := roundVal p r (exactMul a d)

/-- The call `mpfr_mul_z(rop, op1, z, rnd)`; an integer zero counts as positive. -/
def mpfr_mul_z (p : Nat) (a : MpfrVal) (z : Int) (r : Rnd) : MpfrVal :=
  roundVal p r (exactMul a (ofInt z))

/-- The call `mpfr_div(rop, op1, op2, rnd)`. -/
def mpfr_div (p : Nat) (a b : MpfrVal) (r : Rnd) : MpfrVal := roundVal p r (exactDiv a b)

/-- The call `mpfr_div_d(rop, op1, d, rnd)`. -/
def mpfr_div_d (p : Nat) (a d : MpfrVal) (r : Rnd) : MpfrVal := roundVal p r (exactDiv a d)

/-- The call `mpfr_div_z(rop, op1, z, rnd)`; an integer zero counts as positive. -/
def mpfr_div_z (p : Nat) (a : MpfrVal) (z : Int) (r : Rnd) : MpfrVal :=
  roundVal p r (exactDiv a (ofInt z))

/-- The call `mpfr_cmp(op1, op2)`: positive, zero or negative as `op1 > op2`,
`op1 = op2`, `op1 < op2`; zero when an operand is NaN; the sign of a zero is ignored. -/
def mpfr_cmp : MpfrVal → MpfrVal → Int
  | .nan, _ => 0
  | _, .nan => 0
  | .inf s, .inf t => if s = t then 0 else if s then -1 else 1
  | .inf s, _ => if s then -1 else 1
  | _, .inf t => if t then 1 else -1
  | a, b => if toRat a < toRat b then -1 else if toRat b < toRat a then 1 else 0

/-- The call `mpfr_cmp_d(op1, d)`. -/
def mpfr_cmp_d (a d : MpfrVal) : Int := mpfr_cmp a d

/-- The call `mpfr_cmp_z(op1, z)`. -/
def mpfr_cmp_z (a : MpfrVal) (z : Int) : Int := mpfr_cmp a (ofInt z)

/-- The call `mpfr_equal_p(op1, op2) != 0`: false when an operand is NaN; the sign of a
zero is ignored. -/
def mpfr_equal_p : MpfrVal → MpfrVal → Bool
  | .nan, _ => false
  | _, .nan => false
  | .inf s, .inf t => decide (s = t)
  | .inf _, _ => false
  | _, .inf _ => false
  | a, b => decide (toRat a = toRat b)

/-- The rational `q` is a number of `p` significant bits: an integer below `2^p` in
magnitude times a power of two. -/
def Representable (p : Nat) (q : ℚ) : Prop :=
  ∃ (k s : Int), |k| < 2 ^ p ∧ q = (k : ℚ) * 2 ^ s

/-! ## The interop layer (`src/apf.tpp`, and the unary minus of `src/apf.cpp`) -/

/-- The process-wide settings `apf::Precision` and `apf::Rounding`. -/
structure Globals where
  Precision : Nat
  Rounding : Rnd

/-- An `apf` object: its `mpfr_t value`, with the precision it was initialised at. -/
structure Apf where
  prec : Nat
  value : MpfrVal

/-- An operand of type `T` satisfying the concept `num`: an `apf`, a native floating
point number (as the `double` it converts to), or a native integer (its value). -/
inductive Operand
  | val (x : Apf)
  | flt (d : MpfrVal)
  | int (n : Int)

/-- The conversion `static_cast<long>(x)` of a native integer, `long` being 64 bits:
reduction modulo `2^64` into `[-2^63, 2^63)`. -/
def toLong (n : Int) : Int := (n + 2 ^ 63) % 2 ^ 64 - 2 ^ 63

/-- The constructor `apf::apf(T x)` (and the default, copy and move constructors through
the `val` case): `mpfr_init2(value, Precision)`, then the setter for the kind of `T`. -/
def construct (g : Globals) : Operand → Apf
  | .val x => ⟨g.Precision, mpfr_set g.Precision x.value g.Rounding⟩
  | .flt d => ⟨g.Precision, mpfr_set_d g.Precision d g.Rounding⟩
  | .int n => ⟨g.Precision, mpfr_set_si g.Precision (toLong n) g.Rounding⟩

/-- The unary `apf::operator-()`. -/
def neg (g : Globals) (self : Apf) : Apf :=
  ⟨g.Precision, mpfr_neg g.Precision self.value g.Rounding⟩

/-- The member `apf::operator+(const T &rhs)`. -/
def add (g : Globals) (self : Apf) : Operand → Apf
  | .val x => ⟨g.Precision, mpfr_add g.Precision self.value x.value g.Rounding⟩
  | .flt d => ⟨g.Precision, mpfr_add_d g.Precision self.value d g.Rounding⟩
  | .int n => ⟨g.Precision, mpfr_add_z g.Precision self.value (toLong n) g.Rounding⟩

/-- The member `apf::operator-(const T &rhs)`. -/
def sub (g : Globals) (self : Apf) : Operand → Apf
  | .val x => ⟨g.Precision, mpfr_sub g.Precision self.value x.value g.Rounding⟩
  | .flt d => ⟨g.Precision, mpfr_sub_d g.Precision self.value d g.Rounding⟩
  | .int n => ⟨g.Precision, mpfr_sub_z g.Precision self.value (toLong n) g.Rounding⟩

/-- The member `apf::operator*(const T &rhs)`. -/
def mul (g : Globals) (self : Apf) : Operand → Apf
  | .val x => ⟨g.Precision, mpfr_mul g.Precision self.value x.value g.Rounding⟩
  | .flt d => ⟨g.Precision, mpfr_mul_d g.Precision self.value d g.Rounding⟩
  | .int n => ⟨g.Precision, mpfr_mul_z g.Precision self.value (toLong n) g.Rounding⟩

/-- The member `apf::operator/(const T &rhs)`. -/
def div (g : Globals) (self : Apf) : Operand → Apf
  | .val x => ⟨g.Precision, mpfr_div g.Precision self.value x.value g.Rounding⟩
  | .flt d => ⟨g.Precision, mpfr_div_d g.Precision self.value d g.Rounding⟩
  | .int n => ⟨g.Precision, mpfr_div_z g.Precision self.value (toLong n) g.Rounding⟩

/-- The member `apf::operator<(const T &rhs)`. -/
def lt (self : Apf) : Operand → Bool
  | .val x => decide (mpfr_cmp self.value x.value < 0)
  | .flt d => decide (mpfr_cmp_d self.value d < 0)
  | .int n => decide (mpfr_cmp_z self.value (toLong n) < 0)

/-- The member `apf::operator>(const T &rhs)`. -/
def gt (self : Apf) : Operand → Bool
  | .val x => decide (mpfr_cmp self.value x.value > 0)
  | .flt d => decide (mpfr_cmp_d self.value d > 0)
  | .int n => decide (mpfr_cmp_z self.value (toLong n) > 0)

/-- The member `apf::operator<=(const T &rhs)`. -/
def le (self : Apf) (rhs : Operand) : Bool := !(gt self rhs)

/-- The member `apf::operator>=(const T &rhs)`. -/
def ge (self : Apf) (rhs : Operand) : Bool := !(lt self rhs)

/-- The member `apf::operator==(const T &rhs)`. -/
def eq (self : Apf) : Operand → Bool
  | .val x => mpfr_equal_p self.value x.value
  | .flt d => decide (mpfr_cmp_d self.value d = 0)
  | .int n => decide (mpfr_cmp_z self.value (toLong n) = 0)

/-- The free `operator+(const T &lhs, const apf &rhs)` for a native `lhs`. -/
def addLeft (g : Globals) (lhs : Operand) (rhs : Apf) : Apf := add g (construct g lhs) (.val rhs)

/-- The free `operator-(const T &lhs, const apf &rhs)` for a native `lhs`. -/
def subLeft (g : Globals) (lhs : Operand) (rhs : Apf) : Apf := sub g (construct g lhs) (.val rhs)

/-- The free `operator*(const T &lhs, const apf &rhs)` for a native `lhs`. -/
def mulLeft (g : Globals) (lhs : Operand) (rhs : Apf) : Apf := mul g (construct g lhs) (.val rhs)

/-- The free `operator/(const T &lhs, const apf &rhs)` for a native `lhs`. -/
def divLeft (g : Globals) (lhs : Operand) (rhs : Apf) : Apf := div g (construct g lhs) (.val rhs)

/-- The free `operator==(const T &lhs, const apf &rhs)` for a native `lhs`: its body
`apf(lhs) == rhs` compares two `apf` objects, which selects the member. -/
def eqLeft (g : Globals) (lhs : Operand) (rhs : Apf) : Bool := eq (construct g lhs) (.val rhs)

/-- The expression `lhs == rhs` with an `apf` on the left, as overload resolution of
C++20 settles it.  For an `apf` on the right only the member is viable.  For a native
`rhs` both the member and the free `operator==` with its arguments reversed (a
rewritten candidate) match exactly; the free template is constrained by `num_no_apf`,
which is more constrained than the `num` of the member, and is selected: the
expression is `apf(rhs) == lhs` on two `apf` objects.  The member's own branches for a
native are reached only by a call by name, `lhs.operator==(rhs)`, which is `eq`. -/
def eqExpr (g : Globals) (lhs : Apf) : Operand → Bool
  | .val x => eq lhs (.val x)
  | rhs => eqLeft g rhs lhs

/-- The member `apf::operator!=(const T &rhs)`: its body is `!(*this == rhs)`, the
expression resolved as in `eqExpr`. -/
def ne (g : Globals) (self : Apf) (rhs : Operand) : Bool := !(eqExpr g self rhs)

/-- A native operand: a floating point or an integer number, not an `apf`
(the concept `num_no_apf`). -/
def Operand.native : Operand → Prop
  | .val _ => False
  | _ => True

/-- The value of a native operand as the engine receives it from the member operators:
a double as it is, an integer after the cast to `long`. -/
def Operand.nativeVal : Operand → MpfrVal
  | .val x => x.value
  | .flt d => d
  | .int n => ofInt (toLong n)

/-- The value is a zero. -/
def MpfrVal.isZero : MpfrVal → Bool
  | .zero _ => true
  | _ => false

/-- The value is an infinity. -/
def MpfrVal.isInf : MpfrVal → Bool
  | .inf _ => true
  | _ => false

/-- The rounding mode treats a number and its opposite alike (all modes but the two
directed toward an infinity). -/
def Rnd.symmetric : Rnd → Bool
  | .RNDU => false
  | .RNDD => false
  | _ => true

/-! ## Lemmas on decimal numerals -/

theorem digit_char_facts : ∀ d, d < 10 →
    (Char.ofNat (48 + d)).isDigit = true ∧ (Char.ofNat (48 + d)).toNat - 48 = d ∧
      (0 < d → Char.ofNat (48 + d) ≠ '0') := by
  decide

theorem digitsVal_cons_aux (s : List Char) (a : Nat) :
    s.foldl (fun a c => 10 * a + (c.toNat - 48)) a
      = a * 10 ^ s.length + s.foldl (fun a c => 10 * a + (c.toNat - 48)) 0 := by
  induction s generalizing a with
  | nil => simp
  | cons c s ih =>
    simp only [List.foldl_cons, List.length_cons]
    rw [ih (10 * a + (c.toNat - 48)), ih (10 * 0 + (c.toNat - 48))]
    ring

theorem digitsVal_cons (c : Char) (s : List Char) :
    digitsVal (c :: s) = (c.toNat - 48) * 10 ^ s.length + digitsVal s := by
  unfold digitsVal
  rw [List.foldl_cons, digitsVal_cons_aux]
  simp

theorem digitsVal_append (s u : List Char) :
    digitsVal (s ++ u) = digitsVal s * 10 ^ u.length + digitsVal u := by
  unfold digitsVal
  rw [List.foldl_append, digitsVal_cons_aux]

theorem decDigitsAux_spec (fuel : Nat) : ∀ (n : Nat) (acc : List Char), n < fuel →
    allDigits acc →
    allDigits (decDigitsAux fuel n acc) ∧
      digitsVal (decDigitsAux fuel n acc) = n * 10 ^ acc.length + digitsVal acc ∧
      (0 < n → ∃ c rest, decDigitsAux fuel n acc = c :: rest ∧ c ≠ '0') ∧
      decDigitsAux fuel n acc ≠ [] := by
  induction fuel with
  | zero => intro n acc h; omega
  | succ fuel ih =>
    intro n acc hn hacc
    have hd := digit_char_facts (n % 10) (Nat.mod_lt _ (by decide))
    have hacc2 : allDigits (Char.ofNat (48 + n % 10) :: acc) := by
      intro c hc
      rcases List.mem_cons.1 hc with h | h
      · rw [h]; exact hd.1
      · exact hacc c h
    unfold decDigitsAux
    by_cases h0 : n / 10 = 0
    · have hlt : n < 10 := by omega
      have hmod : n % 10 = n := Nat.mod_eq_of_lt hlt
      rw [if_pos h0]
      refine ⟨hacc2, ?_, ?_, by simp⟩
      · rw [digitsVal_cons, hd.2.1, hmod]
      · intro hpos
        exact ⟨_, _, rfl, hd.2.2 (by omega)⟩
    · rw [if_neg h0]
      have h := ih (n / 10) (Char.ofNat (48 + n % 10) :: acc) (by omega) hacc2
      refine ⟨h.1, ?_, ?_, h.2.2.2⟩
      · rw [h.2.1, digitsVal_cons, hd.2.1, List.length_cons, pow_succ]
        have hdm := Nat.div_add_mod n 10
        calc n / 10 * (10 ^ acc.length * 10) + (n % 10 * 10 ^ acc.length + digitsVal acc)
            = (10 * (n / 10) + n % 10) * 10 ^ acc.length + digitsVal acc := by ring
          _ = n * 10 ^ acc.length + digitsVal acc := by rw [hdm]
      · intro _
        exact h.2.2.1 (by omega)

theorem decDigits_spec (n : Nat) :
    allDigits (decDigits n) ∧ digitsVal (decDigits n) = n ∧
      (0 < n → ∃ c rest, decDigits n = c :: rest ∧ c ≠ '0') ∧ decDigits n ≠ [] := by
  have h := decDigitsAux_spec (n + 1) n [] (by omega) (by intro c hc; simp at hc)
  simpa [decDigits, digitsVal] using h

/-! ## The formatter -/

theorem allDigits_head_ne (s : List Char) (hd : allDigits s) (c : Char)
    (hc : c.isDigit = false) : (charAt0 s == c) = false ∨ s = [] := by
  cases s with
  | nil => right; rfl
  | cons a s =>
    left
    have ha := hd a (by simp)
    simp only [charAt0, List.headD_cons, beq_eq_false_iff_ne, ne_eq]
    intro h
    rw [h, hc] at ha
    exact Bool.noConfusion ha

theorem charAt0_engineStr (neg : Bool) (s : List Char) (hd : allDigits s) :
    (charAt0 (engineStr neg s) == '-') = neg := by
  cases neg with
  | true => simp [engineStr, charAt0]
  | false =>
    rcases allDigits_head_ne s hd '-' (by decide) with h | h
    · simpa [engineStr] using h
    · subst h; decide

/-- The branch of `to_string` for a regular value, with the sign already separated. -/
theorem to_string_regular (sgn : Int) (neg : Bool) (s : List Char) (x t : Int)
    (hsgn : sgn ≠ 0) (hd : allDigits s) :
    to_string sgn (engineStr neg s) x t =
      if |x - 1| > t then
        signStr neg ++ ([charAt0 s] ++ if s.length > 1 then '.' :: s.drop 1 else [])
          ++ [' ', 'e'] ++ showLong (x - 1)
      else if x - 1 ≥ 0 then
        signStr neg ++ (s.take x.toNat ++
          if x < (s.length : Int) then '.' :: s.drop x.toNat else [])
      else signStr neg ++ (['0', '.'] ++ List.replicate (-(x - 1)).toNat '0' ++ s) := by
  have hc := charAt0_engineStr neg s hd
  unfold to_string
  simp only [hc, if_neg hsgn, substrFrom, substr, List.drop_zero, sub_add_cancel]
  cases neg <;> simp [engineStr, signStr] <;> split_ifs <;> simp

theorem plain_output_chars (sgn : Int) (neg : Bool) (s : List Char) (x t : Int)
    (hsgn : sgn ≠ 0) (hd : allDigits s) (h : ¬ |x - 1| > t) :
    ∀ c ∈ to_string sgn (engineStr neg s) x t, plainChar c := by
  rw [to_string_regular sgn neg s x t hsgn hd, if_neg h]
  have hsign : ∀ c ∈ signStr neg, plainChar c := by
    intro c hc
    cases neg <;> simp [signStr] at hc
    right; right; exact hc
  have hs : ∀ c ∈ s, plainChar c := fun c hc => Or.inl (hd c hc)
  intro c hc
  split_ifs at hc
  all_goals
    simp only [List.mem_append, List.mem_cons, List.mem_replicate] at hc
  · rcases hc with hc | hc | hc | hc
    · exact hsign c hc
    · exact hs c (List.mem_of_mem_take hc)
    · right; left; exact hc
    · exact hs c (List.mem_of_mem_drop hc)
  · rcases hc with hc | hc | hc
    · exact hsign c hc
    · exact hs c (List.mem_of_mem_take hc)
    · simp at hc
  · rcases hc with hc | ((hc | hc | hc) | hc) | hc
    · exact hsign c hc
    · left; rw [hc]; decide
    · right; left; exact hc
    · simp at hc
    · left; rw [hc.2]; decide
    · exact hs c hc

/-- The plain form of `to_string` for a negative normalized exponent. -/
theorem plain_negative_form (sgn : Int) (neg : Bool) (s : List Char) (e t : Int)
    (hsgn : sgn ≠ 0) (hd : allDigits s) (he : e < 0) (ht : -t ≤ e) :
    to_string sgn (engineStr neg s) (e + 1) t
        = signStr neg ++ ['0', '.'] ++ List.replicate (-e).toNat '0' ++ s := by
  rw [to_string_regular sgn neg s (e + 1) t hsgn hd]
  have h1 : ¬ |e + 1 - 1| > t := by
    rw [add_sub_cancel_right, abs_of_neg he]; omega
  have h2 : ¬ e + 1 - 1 ≥ 0 := by omega
  rw [if_neg h1, if_neg h2, add_sub_cancel_right]
  simp

/-- The plain form of `to_string` for a non-negative normalized exponent. -/
theorem plain_nonneg_form (sgn : Int) (neg : Bool) (s : List Char) (e t : Int)
    (hsgn : sgn ≠ 0) (hd : allDigits s) (he : 0 ≤ e) (ht : e ≤ t) :
    to_string sgn (engineStr neg s) (e + 1) t
      = signStr neg ++ s.take (e + 1).toNat ++
          (if e + 1 < (s.length : Int) then '.' :: s.drop (e + 1).toNat else []) := by
  rw [to_string_regular sgn neg s (e + 1) t hsgn hd]
  have h1 : ¬ |e + 1 - 1| > t := by
    rw [add_sub_cancel_right, abs_of_nonneg he]; omega
  have h2 : e + 1 - 1 ≥ 0 := by omega
  rw [if_neg h1, if_pos h2]
  simp

/-- C4: for a regular value with digit string `s` and normalized exponent `e`
(engine exponent `e + 1`) such that `-PrintExpThreshold ≤ e < 0`, `to_string` returns
the sign, then `0.`, then exactly `-e` characters `0`, then all of `s` verbatim. -/
theorem to_string_plain_negative (sgn : Int) (neg : Bool) (s : List Char) (e t : Int)
    (hsgn : sgn ≠ 0) (hd : allDigits s) (he : e < 0) (ht : -t ≤ e) :
    to_string sgn (engineStr neg s) (e + 1) t
        = signStr neg ++ ['0', '.'] ++ List.replicate (-e).toNat '0' ++ s
      ∧ ((List.replicate (-e).toNat '0').length : Int) = -e := by
  refine ⟨plain_negative_form sgn neg s e t hsgn hd he ht, ?_⟩
  simp only [List.length_replicate]
  omega

/-- The worked example of C4: digits `314159`, normalized exponent `-1`, threshold `10`
give `0.0314159`. -/
theorem to_string_plain_negative_witness :
    to_string 1 (engineStr false "314159".toList) (-1 + 1) 10 = "0.0314159".toList := by
  have h := (to_string_plain_negative 1 false "314159".toList (-1) 10 (by decide)
    (by decide) (by decide) (by decide)).1
  rw [h]
  decide

/-- C5: for a regular value with digit string `s` of length `n` and normalized exponent
`e` (engine exponent `e + 1`) such that `0 ≤ e ≤ PrintExpThreshold`, `to_string` returns
the sign, the first `e + 1` digits of `s`, and then a point and the remaining digits
exactly when `e + 1 < n`. -/
theorem to_string_plain_nonneg (sgn : Int) (neg : Bool) (s : List Char) (e t : Int)
    (hsgn : sgn ≠ 0) (hd : allDigits s) (he : 0 ≤ e) (ht : e ≤ t) :
    to_string sgn (engineStr neg s) (e + 1) t
      = signStr neg ++ s.take (e + 1).toNat ++
          (if e + 1 < (s.length : Int) then '.' :: s.drop (e + 1).toNat else []) :=
  plain_nonneg_form sgn neg s e t hsgn hd he ht

/-- The worked example of C5: digits `123456`, normalized exponent `2`, threshold `10`
give `123.456`. -/
theorem to_string_plain_nonneg_witness :
    to_string 1 (engineStr false "123456".toList) (2 + 1) 10 = "123.456".toList := by
  have h := to_string_plain_nonneg 1 false "123456".toList 2 10 (by decide)
    (by decide) (by decide) (by decide)
  rw [h]
  decide

/-- C6: for a regular value with digit string `s = d₁ d₂ … dₙ` and normalized exponent
`e` (engine exponent `e + 1`) such that `|e| > PrintExpThreshold`, `to_string` returns
the sign, `d₁`, a point and `d₂ … dₙ` only when `n > 1`, a space, the letter `e`, and
`e` as a decimal integer: a minus for a negative `e` and no sign otherwise, then the
digits of `|e|`, which denote `|e|` and do not start with a zero unless `e = 0`. -/
theorem to_string_scientific (sgn : Int) (neg : Bool) (s : List Char) (e t : Int)
    (hsgn : sgn ≠ 0) (hd : allDigits s) (hs : s ≠ []) (he : |e| > t) :
    ∃ d₁ rest, s = d₁ :: rest ∧
      to_string sgn (engineStr neg s) (e + 1) t
        = signStr neg ++ [d₁] ++ (if rest ≠ [] then '.' :: rest else []) ++ [' ', 'e']
            ++ (if e < 0 then ['-'] else []) ++ decDigits e.natAbs
      ∧ allDigits (decDigits e.natAbs) ∧ (digitsVal (decDigits e.natAbs) : Int) = |e|
      ∧ (e ≠ 0 → ∃ c ds, decDigits e.natAbs = c :: ds ∧ c ≠ '0') := by
  obtain ⟨d₁, rest, rfl⟩ := List.exists_cons_of_ne_nil hs
  have hspec := decDigits_spec e.natAbs
  refine ⟨d₁, rest, rfl, ?_, hspec.1, ?_, ?_⟩
  · rw [to_string_regular sgn neg (d₁ :: rest) (e + 1) t hsgn hd]
    have h1 : |e + 1 - 1| > t := by rw [add_sub_cancel_right]; exact he
    rw [if_pos h1, add_sub_cancel_right]
    unfold showLong
    cases rest <;> by_cases hneg : e < 0 <;> simp [charAt0, hneg]
  · rw [hspec.2.1, Int.natCast_natAbs]
  · intro h0
    exact hspec.2.2.1 (Int.natAbs_pos.2 h0)

/-- The worked example of C6: fifteen digits with normalized exponent `12` and
threshold `10` give the first digit, a point, the other fourteen digits and ` e12`. -/
theorem to_string_scientific_witness :
    (∃ d₁ rest, "123456789012345".toList = d₁ :: rest ∧
      to_string 1 (engineStr false "123456789012345".toList) (12 + 1) 10
        = signStr false ++ [d₁] ++ (if rest ≠ [] then '.' :: rest else []) ++ [' ', 'e']
            ++ (if (12 : Int) < 0 then ['-'] else []) ++ decDigits (12 : Int).natAbs
      ∧ allDigits (decDigits (12 : Int).natAbs)
      ∧ (digitsVal (decDigits (12 : Int).natAbs) : Int) = |12|
      ∧ ((12 : Int) ≠ 0 → ∃ c ds, decDigits (12 : Int).natAbs = c :: ds ∧ c ≠ '0'))
      ∧ to_string 1 (engineStr false "123456789012345".toList) (12 + 1) 10
        = "1.23456789012345 e12".toList :=
  ⟨to_string_scientific 1 false "123456789012345".toList 12 10
    (by decide) (by decide) (by decide) (by decide), by decide⟩

theorem plainForm_chars (out : List Char) (h : plainForm out) : ∀ c ∈ out, plainChar c := by
  obtain ⟨neg, ip, fp, _, hip, hfp, rfl⟩ := h
  intro c hc
  simp only [List.mem_append] at hc
  rcases hc with (hc | hc) | hc
  · cases neg <;> simp [signStr] at hc
    right; right; exact hc
  · exact Or.inl (hip c hc)
  · split_ifs at hc with h0
    · simp at hc
    · rcases List.mem_cons.1 hc with h1 | h1
      · right; left; exact h1
      · exact Or.inl (hfp c h1)

theorem space_not_plainChar : ¬ plainChar ' ' := by
  intro h
  rcases h with h | h | h
  · exact absurd h (by decide)
  · exact absurd h (by decide)
  · exact absurd h (by decide)

theorem scientific_output_has_space (sgn : Int) (neg : Bool) (s : List Char) (x t : Int)
    (hsgn : sgn ≠ 0) (hd : allDigits s) (h : |x - 1| > t) :
    ' ' ∈ to_string sgn (engineStr neg s) x t := by
  rw [to_string_regular sgn neg s x t hsgn hd, if_pos h]
  simp

/-- Past the threshold the output has the scientific form for the exponent. -/
theorem scientificForm_of_gt (sgn : Int) (neg : Bool) (s : List Char) (e t : Int)
    (hsgn : sgn ≠ 0) (hd : allDigits s) (h : |e| > t) :
    scientificForm (to_string sgn (engineStr neg s) (e + 1) t) e := by
  have hspec := decDigits_spec e.natAbs
  refine ⟨signStr neg ++ ([charAt0 s] ++ if s.length > 1 then '.' :: s.drop 1 else []),
    decDigits e.natAbs, ?_, hspec.2.2.2, hspec.1, ?_, ?_⟩
  · rw [to_string_regular sgn neg s (e + 1) t hsgn hd,
      if_pos (by rw [add_sub_cancel_right]; exact h), add_sub_cancel_right]
    unfold showLong
    by_cases hneg : e < 0 <;> simp [hneg]
  · rw [hspec.2.1, Int.natCast_natAbs]
  · by_cases h0 : e = 0
    · left; rw [h0]; decide
    · right
      obtain ⟨c, ds, hds, hc⟩ := hspec.2.2.1 (Int.natAbs_pos.2 h0)
      rw [hds]
      simp [hc]

/-- Within the threshold the output has the plain positional form. -/
theorem plainForm_of_le (sgn : Int) (neg : Bool) (s : List Char) (e t : Int)
    (hsgn : sgn ≠ 0) (hd : allDigits s) (hs : s ≠ []) (h : |e| ≤ t) :
    plainForm (to_string sgn (engineStr neg s) (e + 1) t) := by
  have hb := abs_le.1 h
  by_cases he : 0 ≤ e
  · rw [plain_nonneg_form sgn neg s e t hsgn hd he hb.2]
    obtain ⟨k, hk⟩ : ∃ k : Nat, (e + 1).toNat = k + 1 := ⟨e.toNat, by omega⟩
    have htake : allDigits (s.take (k + 1)) := fun c hc => hd c (List.mem_of_mem_take hc)
    have hdrop : allDigits (s.drop (k + 1)) := fun c hc => hd c (List.mem_of_mem_drop hc)
    have hne : s.take (k + 1) ≠ [] := by
      obtain ⟨a, s', rfl⟩ := List.exists_cons_of_ne_nil hs
      simp
    rw [hk]
    by_cases hlt : e + 1 < (s.length : Int)
    · have hdne : s.drop (k + 1) ≠ [] := by
        intro h0
        have h1 := congrArg List.length h0
        rw [List.length_drop] at h1
        simp at h1
        omega
      exact ⟨neg, s.take (k + 1), s.drop (k + 1), hne, htake, hdrop, by
        rw [if_pos hlt, if_neg hdne]⟩
    · exact ⟨neg, s.take (k + 1), [], hne, htake, by intro c hc; simp at hc, by
        rw [if_neg hlt]; simp⟩
  · have he2 : e < 0 := by omega
    rw [plain_negative_form sgn neg s e t hsgn hd he2 (by omega)]
    have hz : allDigits (List.replicate (-e).toNat '0' ++ s) := by
      intro c hc
      rcases List.mem_append.1 hc with h1 | h1
      · rw [(List.mem_replicate.1 h1).2]; decide
      · exact hd c h1
    have hzne : List.replicate (-e).toNat '0' ++ s ≠ [] := by
      intro h0
      exact hs (List.append_eq_nil.1 h0).2
    exact ⟨neg, ['0'], List.replicate (-e).toNat '0' ++ s, by simp, by decide, hz, by
      rw [if_neg hzne]; simp⟩

/-- C3: for a regular value with (non-empty) digit string `s`, normalized exponent `e`
(engine exponent `e + 1`) and a threshold `t ≥ 0`, the output of `to_string` has the
scientific form, ending with ` e<exponent>`, if and only if `|e| > t`, and the plain
positional form if and only if `|e| ≤ t`; at `e = t` and `e = -t` the output is plain
and not scientific, at `e = t + 1` and `e = -(t + 1)` it is scientific and not plain. -/
theorem to_string_boundary (sgn : Int) (neg : Bool) (s : List Char) (e t : Int)
    (hsgn : sgn ≠ 0) (hd : allDigits s) (hs : s ≠ []) (ht : 0 ≤ t) :
    (scientificForm (to_string sgn (engineStr neg s) (e + 1) t) e ↔ |e| > t)
      ∧ (plainForm (to_string sgn (engineStr neg s) (e + 1) t) ↔ |e| ≤ t)
      ∧ (plainForm (to_string sgn (engineStr neg s) (t + 1) t)
          ∧ ¬ scientificForm (to_string sgn (engineStr neg s) (t + 1) t) t)
      ∧ (plainForm (to_string sgn (engineStr neg s) (-t + 1) t)
          ∧ ¬ scientificForm (to_string sgn (engineStr neg s) (-t + 1) t) (-t))
      ∧ (scientificForm (to_string sgn (engineStr neg s) (t + 1 + 1) t) (t + 1)
          ∧ ¬ plainForm (to_string sgn (engineStr neg s) (t + 1 + 1) t))
      ∧ (scientificForm (to_string sgn (engineStr neg s) (-(t + 1) + 1) t) (-(t + 1))
          ∧ ¬ plainForm (to_string sgn (engineStr neg s) (-(t + 1) + 1) t)) := by
  have key1 : ∀ e : Int,
      (scientificForm (to_string sgn (engineStr neg s) (e + 1) t) e ↔ |e| > t) := by
    intro e
    constructor
    · intro h
      by_contra hn
      have hp := plain_output_chars sgn neg s (e + 1) t hsgn hd
        (by rw [add_sub_cancel_right]; exact hn)
      obtain ⟨m, ds, hout, _⟩ := h
      have hmem : ' ' ∈ to_string sgn (engineStr neg s) (e + 1) t := by
        rw [hout]; simp
      exact space_not_plainChar (hp ' ' hmem)
    · exact scientificForm_of_gt sgn neg s e t hsgn hd
  have key2 : ∀ e : Int,
      (plainForm (to_string sgn (engineStr neg s) (e + 1) t) ↔ |e| ≤ t) := by
    intro e
    constructor
    · intro h
      by_contra hn
      have hmem := scientific_output_has_space sgn neg s (e + 1) t hsgn hd
        (by rw [add_sub_cancel_right]; exact not_le.1 hn)
      exact space_not_plainChar (plainForm_chars _ h ' ' hmem)
    · exact plainForm_of_le sgn neg s e t hsgn hd hs
  have a1 : |t| = t := abs_of_nonneg ht
  have a2 : |-t| = t := by rw [abs_neg, a1]
  have a3 : |t + 1| = t + 1 := abs_of_nonneg (by omega)
  have a4 : |-(t + 1)| = t + 1 := by rw [abs_neg, a3]
  refine ⟨key1 e, key2 e, ⟨?_, ?_⟩, ⟨?_, ?_⟩, ⟨?_, ?_⟩, ⟨?_, ?_⟩⟩
  · rw [key2 t, a1]
  · rw [key1 t, a1]; omega
  · rw [key2 (-t), a2]
  · rw [key1 (-t), a2]; omega
  · rw [key1 (t + 1), a3]; omega
  · rw [key2 (t + 1), a3]; omega
  · rw [key1 (-(t + 1)), a4]; omega
  · rw [key2 (-(t + 1)), a4]; omega

/-- A witness of C3: fifteen digits at threshold `10`.  At the normalized exponents
`10` and `-10` the output is plain, at `11` and `-11` it is scientific. -/
theorem to_string_boundary_witness :
    ((plainForm (to_string 1 (engineStr false "123456789012345".toList) (10 + 1) 10)
          ∧ ¬ scientificForm (to_string 1 (engineStr false "123456789012345".toList)
              (10 + 1) 10) 10)
        ∧ (plainForm (to_string 1 (engineStr false "123456789012345".toList) (-10 + 1) 10)
          ∧ ¬ scientificForm (to_string 1 (engineStr false "123456789012345".toList)
              (-10 + 1) 10) (-10))
        ∧ (scientificForm (to_string 1 (engineStr false "123456789012345".toList)
              (10 + 1 + 1) 10) (10 + 1)
          ∧ ¬ plainForm (to_string 1 (engineStr false "123456789012345".toList)
              (10 + 1 + 1) 10))
        ∧ (scientificForm (to_string 1 (engineStr false "123456789012345".toList)
              (-(10 + 1) + 1) 10) (-(10 + 1))
          ∧ ¬ plainForm (to_string 1 (engineStr false "123456789012345".toList)
              (-(10 + 1) + 1) 10)))
      ∧ to_string 1 (engineStr false "123456789012345".toList) (10 + 1) 10
          = "12345678901.2345".toList
      ∧ to_string 1 (engineStr false "123456789012345".toList) (-10 + 1) 10
          = "0.0000000000123456789012345".toList
      ∧ to_string 1 (engineStr false "123456789012345".toList) (10 + 1 + 1) 10
          = "1.23456789012345 e11".toList
      ∧ to_string 1 (engineStr false "123456789012345".toList) (-(10 + 1) + 1) 10
          = "1.23456789012345 e-11".toList :=
  ⟨(to_string_boundary 1 false "123456789012345".toList 0 10 (by decide) (by decide)
      (by decide) (by decide)).2.2,
    by decide, by decide, by decide, by decide⟩

/-! ## The number the plain form denotes -/

theorem digitsVal_replicate_zero (k : Nat) : digitsVal (List.replicate k '0') = 0 := by
  induction k with
  | zero => rfl
  | succ k ih =>
    rw [List.replicate_succ, digitsVal_cons, ih]
    simp

theorem takeWhile_digits (s rest : List Char) (hd : allDigits s) :
    (s ++ '.' :: rest).takeWhile (fun c => c != '.') = s
      ∧ (s ++ '.' :: rest).dropWhile (fun c => c != '.') = '.' :: rest := by
  induction s with
  | nil => simp [List.takeWhile, List.dropWhile]
  | cons a s ih =>
    have ha : (a != '.') = true := by
      have h := hd a (by simp)
      rw [bne_iff_ne]
      intro h2
      rw [h2] at h
      exact absurd h (by decide)
    have ih2 := ih (fun c hc => hd c (List.mem_cons_of_mem _ hc))
    simp [List.takeWhile, List.dropWhile, ha, ih2.1, ih2.2]

theorem takeWhile_digits_only (s : List Char) (hd : allDigits s) :
    s.takeWhile (fun c => c != '.') = s ∧ s.dropWhile (fun c => c != '.') = [] := by
  induction s with
  | nil => simp
  | cons a s ih =>
    have ha : (a != '.') = true := by
      have h := hd a (by simp)
      rw [bne_iff_ne]
      intro h2
      rw [h2] at h
      exact absurd h (by decide)
    have ih2 := ih (fun c hc => hd c (List.mem_cons_of_mem _ hc))
    simp [List.takeWhile, List.dropWhile, ha, ih2.1, ih2.2]

/-- The value of a signed numeral whose body starts with a digit. -/
theorem plainValue_signed (neg : Bool) (ip fp : List Char) (hip : allDigits ip)
    (hne : ip ≠ []) :
    plainValue (signStr neg ++ (ip ++ '.' :: fp))
      = (if neg then -1 else 1) * ((digitsVal ip : ℚ) + (digitsVal fp : ℚ) / 10 ^ fp.length) := by
  obtain ⟨a, ip', rfl⟩ := List.exists_cons_of_ne_nil hne
  have ha : (a == '-') = false := by
    have h := hip a (by simp)
    rw [beq_eq_false_iff_ne]
    intro h2
    rw [h2] at h
    exact absurd h (by decide)
  have htw := takeWhile_digits (a :: ip') fp hip
  cases neg with
  | true =>
    simp only [plainValue, signStr, charAt0, List.cons_append, List.nil_append,
      List.headD_cons, beq_self_eq_true, if_true, List.drop_succ_cons, List.drop_zero]
    rw [← List.cons_append, htw.1, htw.2]
    simp
  | false =>
    simp only [plainValue, signStr, charAt0, List.cons_append, List.nil_append,
      List.headD_cons, ha, Bool.false_eq_true, if_false]
    rw [← List.cons_append, htw.1, htw.2]
    simp

/-- The value of a signed numeral without a point. -/
theorem plainValue_signed_int (neg : Bool) (ip : List Char) (hip : allDigits ip)
    (hne : ip ≠ []) :
    plainValue (signStr neg ++ ip) = (if neg then -1 else 1) * (digitsVal ip : ℚ) := by
  obtain ⟨a, ip', rfl⟩ := List.exists_cons_of_ne_nil hne
  have ha : (a == '-') = false := by
    have h := hip a (by simp)
    rw [beq_eq_false_iff_ne]
    intro h2
    rw [h2] at h
    exact absurd h (by decide)
  have htw := takeWhile_digits_only (a :: ip') hip
  cases neg with
  | true =>
    simp only [plainValue, signStr, charAt0, List.cons_append, List.nil_append,
      List.headD_cons, beq_self_eq_true, if_true, List.drop_succ_cons, List.drop_zero]
    rw [htw.1, htw.2]
    simp [digitsVal]
  | false =>
    simp only [plainValue, signStr, charAt0, List.cons_append, List.nil_append,
      List.headD_cons, ha, Bool.false_eq_true, if_false]
    rw [htw.1, htw.2]
    simp [digitsVal]

/-- For a negative normalized exponent within the threshold the plain form denotes one
tenth of the number the engine reported: the path writes one zero too many. -/
theorem plainValue_negative_exponent (sgn : Int) (neg : Bool) (s : List Char) (e t : Int)
    (hsgn : sgn ≠ 0) (hd : allDigits s) (he : e < 0) (ht : -t ≤ e) :
    plainValue (to_string sgn (engineStr neg s) (e + 1) t) = engineValue neg s (e + 1) / 10 := by
  rw [plain_negative_form sgn neg s e t hsgn hd he ht]
  obtain ⟨k, hk⟩ : ∃ k : Nat, e = -((k : Int) + 1) := ⟨(-e - 1).toNat, by omega⟩
  have hk2 : (-e).toNat = k + 1 := by omega
  have h0 : signStr neg ++ ['0', '.'] ++ List.replicate (-e).toNat '0' ++ s
      = signStr neg ++ (['0'] ++ '.' :: (List.replicate (k + 1) '0' ++ s)) := by
    rw [hk2]; simp
  rw [h0, plainValue_signed neg ['0'] _ (by decide) (by simp), digitsVal_append,
    digitsVal_replicate_zero]
  have hx : e + 1 = -(k : Int) := by omega
  simp only [engineValue, hx, List.length_append, List.length_replicate, zpow_neg,
    zpow_natCast]
  have h10 : (10 : ℚ) ^ k ≠ 0 := by positivity
  have h10s : (10 : ℚ) ^ s.length ≠ 0 := by positivity
  have hv : digitsVal ['0'] = 0 := by decide
  rw [hv]
  push_cast
  field_simp
  ring_nf

/-- For a non-negative normalized exponent within the threshold and a digit string
that reaches the units, the plain form denotes the number the engine reported. -/
theorem plainValue_nonneg_exponent (sgn : Int) (neg : Bool) (s : List Char) (e t : Int)
    (hsgn : sgn ≠ 0) (hd : allDigits s) (he : 0 ≤ e) (ht : e ≤ t)
    (hlen : e + 1 ≤ (s.length : Int)) :
    plainValue (to_string sgn (engineStr neg s) (e + 1) t) = engineValue neg s (e + 1) := by
  rw [plain_nonneg_form sgn neg s e t hsgn hd he ht]
  obtain ⟨k, hk⟩ : ∃ k : Nat, e + 1 = ((k : Int) + 1) := ⟨e.toNat, by omega⟩
  have hk2 : (e + 1).toNat = k + 1 := by omega
  have hkl : k + 1 ≤ s.length := by omega
  have hsplit : s = s.take (k + 1) ++ s.drop (k + 1) := (List.take_append_drop _ _).symm
  have htake : allDigits (s.take (k + 1)) := fun c hc => hd c (List.mem_of_mem_take hc)
  have htne : s.take (k + 1) ≠ [] := by
    intro h
    have h2 := congrArg List.length h
    rw [List.length_take, Nat.min_eq_left hkl] at h2
    simp at h2
  have hval : digitsVal s
      = digitsVal (s.take (k + 1)) * 10 ^ (s.drop (k + 1)).length + digitsVal (s.drop (k + 1)) := by
    conv_lhs => rw [hsplit]
    exact digitsVal_append _ _
  have hdl : (s.drop (k + 1)).length = s.length - (k + 1) := List.length_drop _ _
  have hpow : (10 : ℚ) ^ s.length = 10 ^ (s.length - (k + 1)) * 10 ^ (k + 1) := by
    rw [← pow_add]; congr 1; omega
  have h10 : (10 : ℚ) ^ (s.length - (k + 1)) ≠ 0 := by positivity
  have h10k : (10 : ℚ) ^ (k + 1) ≠ 0 := by positivity
  have hx : (10 : ℚ) ^ (e + 1) = 10 ^ (k + 1) := by
    rw [hk, ← zpow_natCast]; push_cast; rfl
  rw [hk2]
  by_cases hlt : e + 1 < (s.length : Int)
  · rw [if_pos hlt, List.append_assoc, plainValue_signed neg _ _ htake htne]
    simp only [engineValue, hx, hval, hdl, hpow]
    push_cast
    field_simp
    ring_nf
  · have hfull : s.length = k + 1 := by omega
    rw [if_neg hlt, List.append_nil, plainValue_signed_int neg _ htake htne]
    have hdrop : s.drop (k + 1) = [] := List.drop_eq_nil_of_le (by omega)
    simp only [engineValue, hx, hval, hdrop, hfull]
    simp only [digitsVal, List.foldl_nil, List.length_nil]
    push_cast
    field_simp

set_option maxRecDepth 100000 in
/-- C1, the code at two failing inputs.  One half at the default settings (digits
`5000…0`, engine exponent `0`, hence normalized exponent `-1`, threshold `10`) is
written `0.05000…0`, which denotes one twentieth: the negative-exponent path writes
`-e` zeros where `-e - 1` belong.  Digits `51` with engine exponent `3` (the number
`510`) are written `51`: the integer part is not padded when the digit string is
shorter than it. -/
theorem to_string_round_trip_fails :
    to_string 1 (engineStr false digitsOfHalf) 0 10 = ['0', '.', '0'] ++ digitsOfHalf
      ∧ engineValue false digitsOfHalf 0 = 1 / 2
      ∧ plainValue (to_string 1 (engineStr false digitsOfHalf) 0 10) = 1 / 20
      ∧ to_string 1 (engineStr false ['5', '1']) 3 10 = ['5', '1']
      ∧ engineValue false ['5', '1'] 3 = 510
      ∧ plainValue (to_string 1 (engineStr false ['5', '1']) 3 10) = 51 := by
  have hd : allDigits digitsOfHalf := by decide
  have hv : engineValue false digitsOfHalf 0 = 1 / 2 := by
    have h5 : '5'.toNat - 48 = 5 := by decide
    simp only [engineValue, digitsOfHalf, digitsVal_cons, digitsVal_replicate_zero,
      List.length_cons, List.length_replicate, h5]
    norm_num
  have hp := plainValue_negative_exponent 1 false digitsOfHalf (-1) 10 (by decide) hd
    (by decide) (by decide)
  have h51 : to_string 1 (engineStr false ['5', '1']) 3 10 = ['5', '1'] := by decide
  refine ⟨by decide, hv, ?_, h51, ?_, ?_⟩
  · have h0 : (-1 : Int) + 1 = 0 := by decide
    rw [h0, hv] at hp
    rw [hp]
    norm_num
  · simp +decide [engineValue, digitsVal]
    norm_num
  · rw [h51]
    simp +decide [plainValue, digitsVal, charAt0]

/-! ## The digest -/

theorem xor_twice (a b : Nat) : a ^^^ b ^^^ b = a := by
  rw [Nat.xor_assoc, Nat.xor_self, Nat.xor_zero]

/-- With a positive step the loop of the digest ends within its fuel, and its result
is the fold of the windows it visits. -/
theorem hashLoop_eq_fold (strhash : List Char → Nat) (p : List Char) (d : Nat) (hd : 1 ≤ d) :
    ∀ (fuel i h : Nat), p.length ≤ i + fuel →
      hashLoop strhash p d (fuel + 1) i h
        = some ((hashedWindows p d (fuel + 1) i).foldl
            (fun h w => h ^^^ ((strhash w * 2) % 2 ^ 64)) h) := by
  intro fuel
  induction fuel with
  | zero =>
    intro i h hlt
    have hi : ¬ i < p.length := by omega
    simp [hashLoop, hashedWindows, hi]
  | succ fuel ih =>
    intro i h hlt
    rw [hashLoop, hashedWindows]
    by_cases hi : i < p.length
    · rw [if_pos hi, if_pos hi, List.foldl_cons]
      exact ih (i + d) _ (by omega)
    · rw [if_neg hi, if_neg hi]
      rfl

theorem hash_eq_fold (strhash : List Char → Nat) (p : List Char) (d seed : Nat)
    (hd : 1 ≤ d) (hn : d ≤ p.length) :
    hash strhash d seed p
      = some ((hashedWindows p d (p.length + 1) 0).foldl
          (fun h w => h ^^^ ((strhash w * 2) % 2 ^ 64)) seed) := by
  unfold hash
  rw [if_neg (by omega)]
  exact hashLoop_eq_fold strhash p d hd _ 0 seed (by omega)

theorem hash_short (strhash : List Char → Nat) (p : List Char) (d seed : Nat)
    (hn : p.length < d) : hash strhash d seed p = some seed := by
  unfold hash
  rw [if_pos hn]

set_option maxRecDepth 100000 in
/-- C7, the code at a failing input: with the default `hashMax = 200` and
`hashDelta = 20` and the digits of the number one, the loop hashes the empty string
and the nine windows of twenty zeros that START at `n - i`; the window of the leading
twenty digits, which ends at `n - 180`, is never hashed, so the digest of these digits
is that of two hundred zeros and differs from the claimed fold. -/
theorem hash_windows_start_at_n_minus_i :
    hashedWindows digitsOfOne 20 (digitsOfOne.length + 1) 0
        = [] :: List.replicate 9 (List.replicate 20 '0')
      ∧ specWindows digitsOfOne 20
        = List.replicate 9 (List.replicate 20 '0') ++ ['1' :: List.replicate 19 '0']
      ∧ (∀ (strhash : List Char → Nat) (seed : Nat),
          hash strhash 20 seed digitsOfOne = hash strhash 20 seed (List.replicate 200 '0'))
      ∧ hash (fun w => digitsVal w + 1) 20 0 digitsOfOne = some 0
      ∧ specHash (fun w => digitsVal w + 1) 20 0 digitsOfOne = 1553255926290448384 := by
  have hw : hashedWindows digitsOfOne 20 (digitsOfOne.length + 1) 0
      = [] :: List.replicate 9 (List.replicate 20 '0') := by decide
  have hw0 : hashedWindows (List.replicate 200 '0') 20 ((List.replicate 200 '0').length + 1) 0
      = [] :: List.replicate 9 (List.replicate 20 '0') := by decide
  have hs : specWindows digitsOfOne 20
      = List.replicate 9 (List.replicate 20 '0') ++ ['1' :: List.replicate 19 '0'] := by
    decide
  refine ⟨hw, hs, ?_, ?_, ?_⟩
  · intro strhash seed
    rw [hash_eq_fold strhash _ 20 seed (by decide) (by decide),
      hash_eq_fold strhash _ 20 seed (by decide) (by decide), hw, hw0]
  · rw [hash_eq_fold _ _ 20 0 (by decide) (by decide), hw]
    decide
  · unfold specHash
    rw [if_neg (by decide), hs]
    decide

set_option maxRecDepth 100000 in
/-- C2, the code at a failing input: the two zeros are equal for `operator==`, the
engine reports `200` zeros for the one and a minus sign and `200` zeros for the other,
and from the same seed the digest of the positive zero is that of the negative zero
XOR-combined once more with `strhash` of twenty zeros shifted left: the two digests
differ unless that term vanishes. -/
theorem hash_of_signed_zeros (strhash : List Char → Nat) (seed : Nat) :
    eq ⟨1000, .zero false⟩ (.val ⟨1000, .zero true⟩) = true
      ∧ hash strhash 20 seed (digitsOfZero true) = some (seed ^^^ (strhash [] * 2 % 2 ^ 64))
      ∧ hash strhash 20 seed (digitsOfZero false)
          = some (seed ^^^ (strhash [] * 2 % 2 ^ 64)
              ^^^ (strhash (List.replicate 20 '0') * 2 % 2 ^ 64))
      ∧ hash (fun w => w.length) 20 seed (digitsOfZero false)
          ≠ hash (fun w => w.length) 20 seed (digitsOfZero true) := by
  have hw : hashedWindows (digitsOfZero false) 20 ((digitsOfZero false).length + 1) 0
      = [] :: List.replicate 9 (List.replicate 20 '0') := by decide
  have hw2 : hashedWindows (digitsOfZero true) 20 ((digitsOfZero true).length + 1) 0
      = [] :: List.replicate 10 (List.replicate 20 '0') := by decide
  have h1 : ∀ sh : List Char → Nat, hash sh 20 seed (digitsOfZero true)
      = some (seed ^^^ (sh [] * 2 % 2 ^ 64)) := by
    intro sh
    rw [hash_eq_fold sh _ 20 seed (by decide) (by decide), hw2]
    simp [List.replicate, xor_twice]
  have h2 : ∀ sh : List Char → Nat, hash sh 20 seed (digitsOfZero false)
      = some (seed ^^^ (sh [] * 2 % 2 ^ 64) ^^^ (sh (List.replicate 20 '0') * 2 % 2 ^ 64)) := by
    intro sh
    rw [hash_eq_fold sh _ 20 seed (by decide) (by decide), hw]
    simp [List.replicate, xor_twice]
  refine ⟨by decide, h1 strhash, h2 strhash, ?_⟩
  rw [h1, h2]
  intro h
  have h3 := Option.some.inj h
  simp only [List.length_nil, List.length_replicate] at h3
  norm_num at h3
  have h4 : seed ^^^ (seed ^^^ 40) = seed ^^^ seed := by rw [h3]
  rw [← Nat.xor_assoc, Nat.xor_self] at h4
  simp at h4

/-! ## Comparison -/

/-- Away from NaN the relational operators are consistent. -/
theorem le_ge_of_not_nan (a b : Apf) (ha : a.value ≠ .nan) (hb : b.value ≠ .nan) :
    (le a (.val b) = (lt a (.val b) || eq a (.val b)))
      ∧ (ge a (.val b) = (gt a (.val b) || eq a (.val b))) := by
  obtain ⟨pa, va⟩ := a
  obtain ⟨pb, vb⟩ := b
  simp only at ha hb
  cases va with
  | nan => exact absurd rfl ha
  | inf s =>
    cases vb with
    | nan => exact absurd rfl hb
    | inf u => cases s <;> cases u <;> simp [le, ge, lt, gt, eq, mpfr_cmp, mpfr_equal_p]
    | zero u => cases s <;> simp [le, ge, lt, gt, eq, mpfr_cmp, mpfr_equal_p]
    | reg y => cases s <;> simp [le, ge, lt, gt, eq, mpfr_cmp, mpfr_equal_p]
  | zero s =>
    cases vb with
    | nan => exact absurd rfl hb
    | inf u => cases u <;> simp [le, ge, lt, gt, eq, mpfr_cmp, mpfr_equal_p]
    | zero u => simp [le, ge, lt, gt, eq, mpfr_cmp, mpfr_equal_p, toRat]
    | reg y =>
      rcases lt_trichotomy (0 : ℚ) y with h | h | h
      · simp [le, ge, lt, gt, eq, mpfr_cmp, mpfr_equal_p, toRat, h, h.ne, not_lt.2 h.le]
      · simp [le, ge, lt, gt, eq, mpfr_cmp, mpfr_equal_p, toRat, ← h]
      · simp [le, ge, lt, gt, eq, mpfr_cmp, mpfr_equal_p, toRat, h, h.ne', not_lt.2 h.le]
  | reg x =>
    cases vb with
    | nan => exact absurd rfl hb
    | inf u => cases u <;> simp [le, ge, lt, gt, eq, mpfr_cmp, mpfr_equal_p]
    | zero u =>
      rcases lt_trichotomy x (0 : ℚ) with h | h | h
      · simp [le, ge, lt, gt, eq, mpfr_cmp, mpfr_equal_p, toRat, h, h.ne, not_lt.2 h.le]
      · simp [le, ge, lt, gt, eq, mpfr_cmp, mpfr_equal_p, toRat, h]
      · simp [le, ge, lt, gt, eq, mpfr_cmp, mpfr_equal_p, toRat, h, h.ne', not_lt.2 h.le]
    | reg y =>
      rcases lt_trichotomy x y with h | h | h
      · simp [le, ge, lt, gt, eq, mpfr_cmp, mpfr_equal_p, toRat, h, h.ne, not_lt.2 h.le]
      · simp [le, ge, lt, gt, eq, mpfr_cmp, mpfr_equal_p, toRat, h]
      · simp [le, ge, lt, gt, eq, mpfr_cmp, mpfr_equal_p, toRat, h, h.ne', not_lt.2 h.le]

/-- With a NaN operand `<=` and `>=` hold while `<`, `>` and `==` do not. -/
theorem le_ge_of_nan (a b : Apf) (h : a.value = .nan ∨ b.value = .nan) :
    le a (.val b) = true ∧ ge a (.val b) = true ∧ lt a (.val b) = false
      ∧ gt a (.val b) = false ∧ eq a (.val b) = false := by
  obtain ⟨pa, va⟩ := a
  obtain ⟨pb, vb⟩ := b
  simp only at h
  rcases h with h | h
  · subst h
    simp [le, ge, lt, gt, eq, mpfr_cmp, mpfr_equal_p]
  · subst h
    cases va <;> simp [le, ge, lt, gt, eq, mpfr_cmp, mpfr_equal_p]

/-- C10 as amended: for all Values `a` and `b` that are not NaN (infinities and zeros
of either sign included), `a <= b` holds exactly when `a < b` or `a == b`, and `a >= b`
exactly when `a > b` or `a == b`; when `a` or `b` is NaN, `a <= b` and `a >= b` are
both true while `a < b`, `a > b` and `a == b` are all false. -/
theorem le_ge_consistent (a b : Apf) :
    (a.value ≠ .nan → b.value ≠ .nan →
        (le a (.val b) = (lt a (.val b) || eq a (.val b)))
          ∧ (ge a (.val b) = (gt a (.val b) || eq a (.val b))))
      ∧ (a.value = .nan ∨ b.value = .nan →
        le a (.val b) = true ∧ ge a (.val b) = true ∧ lt a (.val b) = false
          ∧ gt a (.val b) = false ∧ eq a (.val b) = false) :=
  ⟨le_ge_of_not_nan a b, le_ge_of_nan a b⟩

/-- A witness of C10 as amended: minus infinity against the number one half, and NaN
against the number one half. -/
theorem le_ge_consistent_witness :
    ((le ⟨1000, .inf true⟩ (.val ⟨1000, .reg (1 / 2)⟩)
        = (lt ⟨1000, .inf true⟩ (.val ⟨1000, .reg (1 / 2)⟩)
            || eq ⟨1000, .inf true⟩ (.val ⟨1000, .reg (1 / 2)⟩)))
      ∧ (ge ⟨1000, .inf true⟩ (.val ⟨1000, .reg (1 / 2)⟩)
        = (gt ⟨1000, .inf true⟩ (.val ⟨1000, .reg (1 / 2)⟩)
            || eq ⟨1000, .inf true⟩ (.val ⟨1000, .reg (1 / 2)⟩))))
      ∧ (le ⟨1000, .nan⟩ (.val ⟨1000, .reg (1 / 2)⟩) = true
        ∧ ge ⟨1000, .nan⟩ (.val ⟨1000, .reg (1 / 2)⟩) = true
        ∧ lt ⟨1000, .nan⟩ (.val ⟨1000, .reg (1 / 2)⟩) = false
        ∧ gt ⟨1000, .nan⟩ (.val ⟨1000, .reg (1 / 2)⟩) = false
        ∧ eq ⟨1000, .nan⟩ (.val ⟨1000, .reg (1 / 2)⟩) = false) :=
  ⟨(le_ge_consistent ⟨1000, .inf true⟩ ⟨1000, .reg (1 / 2)⟩).1 (by simp) (by simp),
    (le_ge_consistent ⟨1000, .nan⟩ ⟨1000, .reg (1 / 2)⟩).2 (Or.inl rfl)⟩

/-- C10 as stated fails on NaN: `NaN <= 1` is true, for `NaN > 1` is false, while
neither `NaN < 1` nor `NaN == 1` holds; likewise for `>=`. -/
theorem le_ge_inconsistent_on_nan :
    ¬ ((le ⟨1000, .nan⟩ (.val ⟨1000, .reg 1⟩)
          = (lt ⟨1000, .nan⟩ (.val ⟨1000, .reg 1⟩) || eq ⟨1000, .nan⟩ (.val ⟨1000, .reg 1⟩)))
        ∧ (ge ⟨1000, .nan⟩ (.val ⟨1000, .reg 1⟩)
          = (gt ⟨1000, .nan⟩ (.val ⟨1000, .reg 1⟩) || eq ⟨1000, .nan⟩ (.val ⟨1000, .reg 1⟩)))) := by
  simp [le, ge, lt, gt, eq, mpfr_cmp, mpfr_equal_p]

/-! ## Rounding -/

theorem roundInt_intCast (r : Rnd) (j : Int) : roundInt r (j : ℚ) = j := by
  cases r <;> simp [roundInt]

theorem roundInt_between (r : Rnd) (t : ℚ) : ⌊t⌋ ≤ roundInt r t ∧ roundInt r t ≤ ⌈t⌉ := by
  have hfc : ⌊t⌋ ≤ ⌈t⌉ := Int.floor_le_ceil t
  cases r
  case RNDD => simp [roundInt, hfc]
  case RNDU => simp [roundInt, hfc]
  case RNDZ => simp only [roundInt]; split_ifs <;> simp [hfc]
  case RNDA => simp only [roundInt]; split_ifs <;> simp [hfc]
  case RNDN =>
    simp only [roundInt]
    have hc : t - ⌊t⌋ < 1 / 2 ∨ ⌊t⌋ + 1 ≤ ⌈t⌉ := by
      by_cases h : t - ⌊t⌋ < 1 / 2
      · exact Or.inl h
      · right
        have h1 : (⌊t⌋ : ℚ) < t := by linarith
        have h2 : ⌊t⌋ < ⌈t⌉ := by
          have := Int.le_ceil t
          exact_mod_cast lt_of_lt_of_le h1 this
        omega
    split_ifs with h1 h2 h3
    · simp [hfc]
    · rcases hc with h | h
      · exact absurd h h1
      · omega
    · simp [hfc]
    · rcases hc with h | h
      · exact absurd h h1
      · omega

theorem roundInt_neg (r : Rnd) (hr : r.symmetric = true) (t : ℚ) :
    roundInt r (-t) = - roundInt r t := by
  cases r
  case RNDU => exact absurd hr (by decide)
  case RNDD => exact absurd hr (by decide)
  case RNDZ =>
    simp only [roundInt, Int.floor_neg, Int.ceil_neg]
    rcases lt_trichotomy t 0 with h | h | h
    · simp [h.le, not_le.2 h, neg_nonneg]
    · simp [h]
    · have h2 : ¬ t ≤ 0 := not_le.2 h
      simp [h.le, h2]
  case RNDA =>
    simp only [roundInt, Int.floor_neg, Int.ceil_neg]
    rcases lt_trichotomy t 0 with h | h | h
    · simp [h.le, not_le.2 h, neg_nonneg]
    · simp [h]
    · have h2 : ¬ t ≤ 0 := not_le.2 h
      simp [h.le, h2]
  case RNDN =>
    have hf := Int.floor_le t
    have hf2 := Int.lt_floor_add_one t
    by_cases hint : (⌊t⌋ : ℚ) = t
    · have h1 : roundInt .RNDN t = ⌊t⌋ := by
        rw [← hint]; exact roundInt_intCast _ _
      have h2 : roundInt .RNDN (-t) = -⌊t⌋ := by
        rw [← hint, ← Int.cast_neg]; exact roundInt_intCast _ _
      rw [h1, h2]
    · have hlt : (⌊t⌋ : ℚ) < t := lt_of_le_of_ne hf hint
      have hfn : ⌊-t⌋ = -⌊t⌋ - 1 := by
        rw [Int.floor_eq_iff]
        push_cast
        constructor <;> linarith
      simp only [roundInt, hfn]
      push_cast
      rcases lt_trichotomy (t - ⌊t⌋) (1 / 2) with h | h | h
      · have h1 : ¬ (-t - (-(⌊t⌋ : ℚ) - 1) < 1 / 2) := by linarith
        have h2 : 1 / 2 < -t - (-(⌊t⌋ : ℚ) - 1) := by linarith
        simp only [h, h1, h2, if_true, if_false]
        ring
      · have h1 : ¬ (-t - (-(⌊t⌋ : ℚ) - 1) < 1 / 2) := by linarith
        have h2 : ¬ (1 / 2 < -t - (-(⌊t⌋ : ℚ) - 1)) := by linarith
        have h3 : ¬ (t - ⌊t⌋ < 1 / 2) := by linarith
        have h4 : ¬ (1 / 2 < t - ⌊t⌋) := by linarith
        simp only [h1, h2, h3, h4, if_false]
        rcases Int.emod_two_eq_zero_or_one ⌊t⌋ with he | he
        · have he2 : (-⌊t⌋ - 1) % 2 ≠ 0 := by omega
          simp only [he, he2, if_true, if_false]
          ring
        · have he2 : (-⌊t⌋ - 1) % 2 = 0 := by omega
          have he3 : ⌊t⌋ % 2 ≠ 0 := by omega
          simp only [he2, he3, if_true, if_false]
          ring
      · have h1 : -t - (-(⌊t⌋ : ℚ) - 1) < 1 / 2 := by linarith
        have h3 : ¬ (t - ⌊t⌋ < 1 / 2) := by linarith
        simp only [h, h1, h3, if_true, if_false]
        ring

theorem two_zpow_pos (s : Int) : (0 : ℚ) < 2 ^ s := zpow_pos (by norm_num) s

theorem log_bounds (q : ℚ) (hq : q ≠ 0) :
    (2 : ℚ) ^ Int.log 2 |q| ≤ |q| ∧ |q| < (2 : ℚ) ^ (Int.log 2 |q| + 1) := by
  have hpos : 0 < |q| := abs_pos.2 hq
  have h1 := Int.zpow_log_le_self (b := 2) (r := |q|) (by norm_num) hpos
  have h2 := Int.lt_zpow_succ_log_self (b := 2) (by norm_num) |q|
  exact ⟨by exact_mod_cast h1, by exact_mod_cast h2⟩

/-- The rounding evaluated at a known binary order of magnitude. -/
theorem mpfr_round_eq (p : Nat) (r : Rnd) (q : ℚ) (e : Int) (hq : q ≠ 0)
    (h1 : (2 : ℚ) ^ e ≤ |q|) (h2 : |q| < (2 : ℚ) ^ (e + 1)) :
    mpfr_round p r q = (roundInt r (q / 2 ^ (e + 1 - (p : Int))) : ℚ) * 2 ^ (e + 1 - (p : Int)) := by
  have hpos : 0 < |q| := abs_pos.2 hq
  have hlog : Int.log 2 |q| = e := by
    apply le_antisymm
    · have := (Int.lt_zpow_iff_log_lt (b := 2) (x := e + 1) (by norm_num) hpos).1
        (by exact_mod_cast h2)
      omega
    · exact (Int.zpow_le_iff_le_log (b := 2) (by norm_num) hpos).1 (by exact_mod_cast h1)
  unfold mpfr_round
  rw [if_neg hq, hlog]

theorem mpfr_round_exact (p : Nat) (r : Rnd) (q : ℚ) (h : Representable p q) :
    mpfr_round p r q = q := by
  by_cases hq : q = 0
  · simp [mpfr_round, hq]
  obtain ⟨k, s, hk, rfl⟩ := h
  obtain ⟨hl1, hl2⟩ := log_bounds _ hq
  set e := Int.log 2 |(k : ℚ) * 2 ^ s| with he
  have habs : |(k : ℚ) * 2 ^ s| = |(k : ℚ)| * 2 ^ s := by
    rw [abs_mul, abs_of_pos (two_zpow_pos s)]
  have hkq : |(k : ℚ)| < 2 ^ (p : Int) := by
    rw [← Int.cast_abs]
    have : ((|k| : Int) : ℚ) < ((2 ^ p : Int) : ℚ) := Int.cast_lt.2 hk
    simpa using this
  have hlt : (2 : ℚ) ^ e < 2 ^ ((p : Int) + s) := by
    calc (2 : ℚ) ^ e ≤ |(k : ℚ)| * 2 ^ s := by rw [← habs]; exact hl1
      _ < 2 ^ (p : Int) * 2 ^ s := by
        exact mul_lt_mul_of_pos_right hkq (two_zpow_pos s)
      _ = 2 ^ ((p : Int) + s) := by rw [zpow_add₀ (by norm_num)]
  have hes : e < (p : Int) + s := (zpow_lt_zpow_iff_right₀ (by norm_num)).1 hlt
  obtain ⟨m, hm⟩ : ∃ m : Nat, (m : Int) = s - (e + 1 - (p : Int)) :=
    ⟨(s - (e + 1 - (p : Int))).toNat, Int.toNat_of_nonneg (by omega)⟩
  have hs : s = (e + 1 - (p : Int)) + m := by omega
  have ht : (k : ℚ) * 2 ^ s / 2 ^ (e + 1 - (p : Int)) = ((k * 2 ^ m : Int) : ℚ) := by
    have hu : (2 : ℚ) ^ (e + 1 - (p : Int)) ≠ 0 := (two_zpow_pos _).ne'
    rw [hs, zpow_add₀ (by norm_num), zpow_natCast]
    field_simp
    ring
  unfold mpfr_round
  rw [if_neg hq, ← he, ht, roundInt_intCast, ← ht]
  have hu : (2 : ℚ) ^ (e + 1 - (p : Int)) ≠ 0 := (two_zpow_pos _).ne'
  field_simp

theorem mpfr_round_neg (p : Nat) (r : Rnd) (hr : r.symmetric = true) (q : ℚ) :
    mpfr_round p r (-q) = - mpfr_round p r q := by
  by_cases hq : q = 0
  · simp [mpfr_round, hq]
  have hq2 : -q ≠ 0 := neg_ne_zero.2 hq
  unfold mpfr_round
  rw [if_neg hq, if_neg hq2, abs_neg, neg_div, roundInt_neg r hr]
  push_cast
  ring

theorem mpfr_round_representable (p : Nat) (hp : 1 ≤ p) (r : Rnd) (q : ℚ) :
    Representable p (mpfr_round p r q) := by
  by_cases hq : q = 0
  · exact ⟨0, 0, by simp, by simp [mpfr_round, hq]⟩
  obtain ⟨hl1, hl2⟩ := log_bounds _ hq
  set e := Int.log 2 |q| with he
  set u : ℚ := 2 ^ (e + 1 - (p : Int)) with hu
  have hupos : 0 < u := two_zpow_pos _
  have hval : mpfr_round p r q = (roundInt r (q / u) : ℚ) * u := by
    unfold mpfr_round
    rw [if_neg hq]
  have htabs : |q / u| < 2 ^ p := by
    rw [abs_div, abs_of_pos hupos, div_lt_iff₀ hupos, hu, ← zpow_natCast,
      ← zpow_add₀ (by norm_num)]
    have : (p : Int) + (e + 1 - (p : Int)) = e + 1 := by ring
    rw [this]
    exact hl2
  obtain ⟨hb1, hb2⟩ := roundInt_between r (q / u)
  have hj : |roundInt r (q / u)| ≤ 2 ^ p := by
    have h1 : q / u < 2 ^ p := (abs_lt.1 htabs).2
    have h2 : -(2 ^ p : ℚ) < q / u := (abs_lt.1 htabs).1
    have hc : ⌈q / u⌉ ≤ 2 ^ p := Int.ceil_le.2 (by push_cast; exact h1.le)
    have hf : -(2 ^ p : Int) ≤ ⌊q / u⌋ := Int.le_floor.2 (by push_cast; exact h2.le)
    rw [abs_le]
    constructor <;> omega
  rcases lt_or_eq_of_le hj with hlt | heq
  · exact ⟨roundInt r (q / u), e + 1 - (p : Int), hlt, hval⟩
  · obtain ⟨p', rfl⟩ : ∃ p', p = p' + 1 := ⟨p - 1, by omega⟩
    have hcases : roundInt r (q / u) = 2 ^ (p' + 1) ∨ roundInt r (q / u) = -2 ^ (p' + 1) := by
      rcases abs_cases (roundInt r (q / u)) with ⟨h, _⟩ | ⟨h, _⟩
      · left; rw [← h, heq]
      · right; rw [← heq, h]; ring
    have hsmall : |(2 : Int) ^ p'| < 2 ^ (p' + 1) := by
      rw [abs_of_pos (by positivity), pow_succ]
      have : (0 : Int) < 2 ^ p' := by positivity
      omega
    rcases hcases with h | h
    · refine ⟨2 ^ p', e + 1 - ((p' + 1 : Nat) : Int) + 1, hsmall, ?_⟩
      rw [hval, h, hu, zpow_add₀ (by norm_num)]
      push_cast
      ring
    · refine ⟨-2 ^ p', e + 1 - ((p' + 1 : Nat) : Int) + 1, by rw [abs_neg]; exact hsmall, ?_⟩
      rw [hval, h, hu, zpow_add₀ (by norm_num)]
      push_cast
      ring

theorem mpfr_round_idem (p : Nat) (hp : 1 ≤ p) (r : Rnd) (q : ℚ) :
    mpfr_round p r (mpfr_round p r q) = mpfr_round p r q :=
  mpfr_round_exact p r _ (mpfr_round_representable p hp r q)

/-! ## Integer narrowing -/

theorem toLong_range (n : Int) : -2 ^ 63 ≤ toLong n ∧ toLong n < 2 ^ 63 := by
  unfold toLong
  constructor <;> omega

theorem long_representable (p : Nat) (hp : 63 ≤ p) (z : Int) (h1 : -2 ^ 63 ≤ z)
    (h2 : z < 2 ^ 63) : Representable p (z : ℚ) := by
  have hpow : (2 : Int) ^ 63 ≤ 2 ^ p := pow_le_pow_right₀ (by norm_num) hp
  by_cases hz : z = -2 ^ 63
  · refine ⟨-1, 63, ?_, ?_⟩
    · have : (1 : Int) < 2 ^ p := lt_of_lt_of_le (by norm_num) hpow
      simpa using this
    · rw [hz]; norm_num
  · refine ⟨z, 0, ?_, by simp⟩
    rw [abs_lt]
    constructor <;> omega

theorem roundVal_ofInt_long (p : Nat) (hp : 63 ≤ p) (r : Rnd) (n : Int) :
    roundVal p r (ofInt (toLong n)) = ofInt (toLong n) := by
  unfold ofInt
  split_ifs with h
  · rfl
  · simp only [roundVal]
    rw [mpfr_round_exact p r _
      (long_representable p hp _ (toLong_range n).1 (toLong_range n).2)]

theorem mpfr_cmp_self_ofInt (z : Int) : mpfr_cmp (ofInt z) (ofInt z) = 0 := by
  unfold ofInt
  split_ifs <;> simp [mpfr_cmp, toRat]

theorem floor_five_halves : ⌊(5 / 2 : ℚ)⌋ = 2 := by
  rw [Int.floor_eq_iff]; norm_num

theorem round_2N_5 : mpfr_round 2 .RNDN 5 = 4 := by
  rw [mpfr_round_eq 2 .RNDN 5 2 (by norm_num) (by norm_num) (by norm_num)]
  have h : (5 : ℚ) / 2 ^ ((2 : Int) + 1 - ((2 : Nat) : Int)) = 5 / 2 := by norm_num
  rw [h]
  simp only [roundInt, floor_five_halves]
  norm_num

theorem equal_p_add_comm (p : Nat) (r : Rnd) (a v : MpfrVal) (ha : a ≠ .nan)
    (hv : Finite v) :
    mpfr_equal_p (roundVal p r (exactAdd r a v)) (roundVal p r (exactAdd r v a)) = true := by
  cases a with
  | nan => exact absurd rfl ha
  | inf s => cases v <;> simp [Finite] at hv <;> simp [exactAdd, roundVal, mpfr_equal_p]
  | zero s =>
    cases v with
    | nan => simp [Finite] at hv
    | inf u => simp [Finite] at hv
    | zero u => simp [exactAdd, roundVal, mpfr_equal_p, toRat]
    | reg y => simp [exactAdd, roundVal, mpfr_equal_p, toRat]
  | reg x =>
    cases v with
    | nan => simp [Finite] at hv
    | inf u => simp [Finite] at hv
    | zero u => simp [exactAdd, roundVal, mpfr_equal_p, toRat]
    | reg y =>
      by_cases h : x + y = 0
      · have h2 : y + x = 0 := by rw [add_comm]; exact h
        simp [exactAdd, roundVal, mpfr_equal_p, toRat, h, h2]
      · have h2 : ¬ y + x = 0 := by rw [add_comm]; exact h
        simp [exactAdd, roundVal, mpfr_equal_p, toRat, h, h2, add_comm]

theorem equal_p_add_zero (p : Nat) (r : Rnd) (v : MpfrVal) (hv : Finite v) :
    mpfr_equal_p (roundVal p r (exactAdd r (.zero false) v)) (roundVal p r v) = true := by
  cases v with
  | nan => simp [Finite] at hv
  | inf u => simp [Finite] at hv
  | zero u => simp [exactAdd, roundVal, mpfr_equal_p, toRat]
  | reg y => simp [exactAdd, roundVal, mpfr_equal_p, toRat]

theorem equal_p_mul_comm (p : Nat) (r : Rnd) (a v : MpfrVal) (ha : a ≠ .nan)
    (hv : Finite v) (hz : ¬ (a.isInf = true ∧ v.isZero = true)) :
    mpfr_equal_p (roundVal p r (exactMul a v)) (roundVal p r (exactMul v a)) = true := by
  cases a with
  | nan => exact absurd rfl ha
  | inf s =>
    cases v with
    | nan => simp [Finite] at hv
    | inf u => simp [Finite] at hv
    | zero u => simp [MpfrVal.isInf, MpfrVal.isZero] at hz
    | reg y => simp [exactMul, roundVal, mpfr_equal_p, Bool.xor_comm]
  | zero s =>
    cases v with
    | nan => simp [Finite] at hv
    | inf u => simp [Finite] at hv
    | zero u => simp [exactMul, roundVal, mpfr_equal_p, toRat]
    | reg y => simp [exactMul, roundVal, mpfr_equal_p, toRat]
  | reg x =>
    cases v with
    | nan => simp [Finite] at hv
    | inf u => simp [Finite] at hv
    | zero u => simp [exactMul, roundVal, mpfr_equal_p, toRat]
    | reg y => simp [exactMul, roundVal, mpfr_equal_p, toRat, mul_comm]

theorem round_neg_round (p : Nat) (hp : 1 ≤ p) (r : Rnd) (hr : r.symmetric = true) (y : ℚ) :
    mpfr_round p r (-(mpfr_round p r y)) = mpfr_round p r (-y) := by
  rw [mpfr_round_neg p r hr, mpfr_round_idem p hp, mpfr_round_neg p r hr]

theorem equal_p_sub_neg (p : Nat) (hp : 1 ≤ p) (r : Rnd) (hr : r.symmetric = true)
    (a v : MpfrVal) (ha : a ≠ .nan) (hv : Finite v) :
    mpfr_equal_p (roundVal p r (exactAdd r a (exactNeg v)))
      (roundVal p r (exactNeg (roundVal p r (exactAdd r v (exactNeg a))))) = true := by
  cases a with
  | nan => exact absurd rfl ha
  | inf s => cases v <;> simp [Finite] at hv <;> simp [exactAdd, exactNeg, roundVal, mpfr_equal_p]
  | zero s =>
    cases v with
    | nan => simp [Finite] at hv
    | inf u => simp [Finite] at hv
    | zero u => simp [exactAdd, exactNeg, roundVal, mpfr_equal_p, toRat]
    | reg y =>
      simp [exactAdd, exactNeg, roundVal, mpfr_equal_p, toRat, mpfr_round_neg p r hr,
        mpfr_round_idem p hp]
  | reg x =>
    cases v with
    | nan => simp [Finite] at hv
    | inf u => simp [Finite] at hv
    | zero u =>
      simp [exactAdd, exactNeg, roundVal, mpfr_equal_p, toRat, mpfr_round_neg p r hr,
        mpfr_round_idem p hp]
    | reg y =>
      by_cases h : x + -y = 0
      · have h2 : y + -x = 0 := by linarith
        simp [exactAdd, exactNeg, roundVal, mpfr_equal_p, toRat, h, h2]
      · have h2 : ¬ y + -x = 0 := fun h3 => h (by linarith)
        have h3 : -(y + -x) = x + -y := by ring
        simp [exactAdd, exactNeg, roundVal, mpfr_equal_p, toRat, h, h2,
          round_neg_round p hp r hr, h3]

theorem equal_p_sub_zero (p : Nat) (hp : 1 ≤ p) (r : Rnd) (hr : r.symmetric = true)
    (v : MpfrVal) (hv : Finite v) :
    mpfr_equal_p (roundVal p r (exactAdd r (.zero false) (exactNeg v)))
      (roundVal p r (exactNeg (roundVal p r v))) = true := by
  cases v with
  | nan => simp [Finite] at hv
  | inf u => simp [Finite] at hv
  | zero u => simp [exactAdd, exactNeg, roundVal, mpfr_equal_p, toRat]
  | reg y =>
    simp [exactAdd, exactNeg, roundVal, mpfr_equal_p, toRat, round_neg_round p hp r hr]

/-- C8 as amended: for a native number `n` that is not NaN and whose conversion
`apf(n)` is exact at the current `Precision` (of at least one bit), and for every finite
Value `v`: `(n + v) == (v + n)`; `(n * v) == (v * n)` unless `n` is an infinity and `v`
a zero; and `(n - v) == -(v - n)` when `Rounding` is not directed toward an infinity. -/
theorem symmetric_operators (g : Globals) (n : Operand) (v : Apf)
    (hn : n.native) (hv : Finite v.value) (hp : 1 ≤ g.Precision)
    (hnan : n.nativeVal ≠ .nan) (hexact : (construct g n).value = n.nativeVal) :
    eq (addLeft g n v) (.val (add g v n)) = true
      ∧ (¬ (n.nativeVal.isInf = true ∧ v.value.isZero = true) →
          eq (mulLeft g n v) (.val (mul g v n)) = true)
      ∧ (g.Rounding.symmetric = true →
          eq (subLeft g n v) (.val (neg g (sub g v n))) = true) := by
  obtain ⟨P, r⟩ := g
  obtain ⟨pv, vv⟩ := v
  simp only at hv hp
  cases n with
  | val x => exact absurd hn (by simp [Operand.native])
  | flt d =>
    simp only [Operand.nativeVal] at hnan hexact ⊢
    simp only [addLeft, mulLeft, subLeft, add, mul, sub, neg, eq, hexact, mpfr_add,
      mpfr_add_d, mpfr_mul, mpfr_mul_d, mpfr_sub, mpfr_sub_d, mpfr_neg]
    exact ⟨equal_p_add_comm P r d vv hnan hv,
      fun hz => equal_p_mul_comm P r d vv hnan hv hz,
      fun hr => equal_p_sub_neg P hp r hr d vv hnan hv⟩
  | int z =>
    simp only [Operand.nativeVal] at hnan hexact ⊢
    simp only [addLeft, mulLeft, subLeft, add, mul, sub, neg, eq, hexact, mpfr_add,
      mpfr_add_z, mpfr_mul, mpfr_mul_z, mpfr_sub, mpfr_sub_z, mpfr_neg]
    refine ⟨?_, fun hz => equal_p_mul_comm P r _ vv hnan hv hz, fun hr => ?_⟩
    · by_cases h0 : toLong z = 0
      · simp only [ofInt, h0, if_true]
        exact equal_p_add_zero P r vv hv
      · have h := equal_p_add_comm P r (ofInt (toLong z)) vv hnan hv
        simpa only [ofInt, h0, if_false] using h
    · by_cases h0 : toLong z = 0
      · simp only [ofInt, h0, if_true]
        exact equal_p_sub_zero P hp r hr vv hv
      · have h := equal_p_sub_neg P hp r hr (ofInt (toLong z)) vv hnan hv
        simpa only [ofInt, h0, if_false, exactNeg, Int.cast_neg] using h

/-- A witness of C8 as amended: the integer three and the Value one half at the
default precision, rounding to nearest. -/
theorem symmetric_operators_witness :
    eq (addLeft ⟨1000, .RNDN⟩ (.int 3) ⟨1000, .reg (1 / 2)⟩)
        (.val (add ⟨1000, .RNDN⟩ ⟨1000, .reg (1 / 2)⟩ (.int 3))) = true
      ∧ eq (mulLeft ⟨1000, .RNDN⟩ (.int 3) ⟨1000, .reg (1 / 2)⟩)
        (.val (mul ⟨1000, .RNDN⟩ ⟨1000, .reg (1 / 2)⟩ (.int 3))) = true
      ∧ eq (subLeft ⟨1000, .RNDN⟩ (.int 3) ⟨1000, .reg (1 / 2)⟩)
        (.val (neg ⟨1000, .RNDN⟩ (sub ⟨1000, .RNDN⟩ ⟨1000, .reg (1 / 2)⟩ (.int 3)))) = true :=
  have h3 : toLong 3 = 3 := by decide
  let h := symmetric_operators ⟨1000, .RNDN⟩ (.int 3) ⟨1000, .reg (1 / 2)⟩
    (by simp [Operand.native]) (by simp [Finite]) (by decide)
    (by simp [Operand.nativeVal, ofInt, h3])
    (roundVal_ofInt_long 1000 (by decide) .RNDN 3)
  ⟨h.1, h.2.1 (by simp [Operand.nativeVal, ofInt, h3, MpfrVal.isInf]), h.2.2 (by decide)⟩

theorem ceil_five_halves : ⌈(5 / 2 : ℚ)⌉ = 3 := by
  rw [Int.ceil_eq_iff]; norm_num

theorem ceil_neg_five_halves : ⌈(-5 / 2 : ℚ)⌉ = -2 := by
  rw [Int.ceil_eq_iff]; norm_num

theorem round_2_exact_6 (r : Rnd) : mpfr_round 2 r 6 = 6 :=
  mpfr_round_exact 2 r 6 ⟨3, 1, by decide, by norm_num⟩

theorem round_2_exact_4 (r : Rnd) : mpfr_round 2 r 4 = 4 :=
  mpfr_round_exact 2 r 4 ⟨1, 2, by decide, by norm_num⟩

theorem round_2U_5 : mpfr_round 2 .RNDU 5 = 6 := by
  rw [mpfr_round_eq 2 .RNDU 5 2 (by norm_num) (by norm_num) (by norm_num)]
  have h : (5 : ℚ) / 2 ^ ((2 : Int) + 1 - ((2 : Nat) : Int)) = 5 / 2 := by norm_num
  rw [h]
  simp only [roundInt, ceil_five_halves]
  norm_num

theorem round_2U_neg5 : mpfr_round 2 .RNDU (-5) = -4 := by
  rw [mpfr_round_eq 2 .RNDU (-5) 2 (by norm_num) (by norm_num) (by norm_num)]
  have h : (-5 : ℚ) / 2 ^ ((2 : Int) + 1 - ((2 : Nat) : Int)) = -5 / 2 := by norm_num
  rw [h]
  simp only [roundInt, ceil_neg_five_halves]
  norm_num

/-- C8 as stated fails in three ways.  With a NaN on the left, `n + v` and `v + n` are
both NaN, which is not equal to itself.  At `Precision = 2`, rounding to nearest,
`5 + 1` is `4` (five is first rounded to four) while `1 + 5` is `6`.  At
`Precision = 2`, rounding toward plus infinity, `6 - 1` is `6` while `-(1 - 6)`
is `4`. -/
theorem symmetric_operators_fail :
    eq (addLeft ⟨1000, .RNDN⟩ (.flt .nan) ⟨1000, .reg 1⟩)
        (.val (add ⟨1000, .RNDN⟩ ⟨1000, .reg 1⟩ (.flt .nan))) = false
      ∧ eq (addLeft ⟨2, .RNDN⟩ (.int 5) ⟨2, .reg 1⟩)
        (.val (add ⟨2, .RNDN⟩ ⟨2, .reg 1⟩ (.int 5))) = false
      ∧ eq (subLeft ⟨2, .RNDU⟩ (.int 6) ⟨2, .reg 1⟩)
        (.val (neg ⟨2, .RNDU⟩ (sub ⟨2, .RNDU⟩ ⟨2, .reg 1⟩ (.int 6)))) = false := by
  have h5 : toLong 5 = 5 := by decide
  have h6 : toLong 6 = 6 := by decide
  refine ⟨?_, ?_, ?_⟩
  · simp [addLeft, add, construct, eq, mpfr_set_d, mpfr_add, mpfr_add_d, roundVal,
      exactAdd, mpfr_equal_p]
  · simp only [addLeft, add, construct, eq, mpfr_set_si, mpfr_add, mpfr_add_z, h5, ofInt]
    norm_num [roundVal, exactAdd, round_2N_5, round_2_exact_6, mpfr_equal_p, toRat]
  · simp only [subLeft, sub, neg, construct, eq, mpfr_set_si, mpfr_sub, mpfr_sub_z,
      mpfr_neg, h6, ofInt]
    norm_num [roundVal, exactAdd, exactNeg, round_2U_5, round_2U_neg5, round_2_exact_6,
      round_2_exact_4, mpfr_equal_p, toRat]

end apf
